import Mathlib

/-!
Verification development for the shadowcast field-of-view engine
(src/base.rs and src/shadowcast.rs).

Modelling conventions:
* Rust `i32` values are modelled as unbounded integers (`Int`).  Every quantity
  manipulated by the engine within its documented operating range stays far
  below 2^31, with one deliberate exception: the cross products inside the
  slope comparison, whose 32-bit wrapping behaviour is the subject of a
  numerical claim and is therefore modelled explicitly (`wrap32`, `Slope.cmp`).
  Inside the sweep itself slope comparisons are modelled by the exact rational
  ordering that the source's comment appeals to (`a/b < c/d ⟺ ad < bc`,
  valid since denominators are positive); the theorem
  `slope_cmp_agrees_when_bounded` shows the 32-bit comparison agrees with the
  exact one whenever the cross products fit in 32 bits, which holds for every
  slope arising in a sweep of radius at most 23169.
* The `f64` attenuation factor in the partial-transparency branch of the
  sweep (`(r * opacity as f64) as i32` with `r = 1.0 + 0.5*|y|/x`) is modelled
  as an explicit function parameter `loss : Int → Int → Int → Int`
  (arguments: width, depth, opacity).  No theorem below depends on its value,
  so all theorems quantify over it; this is strictly stronger than fixing any
  particular rounding model for the floating-point expression.
* `Matrix::entry_mut(..).unwrap()` panics on out-of-bounds points in Rust; it
  is modelled by a total read-modify-write.  The sweep only reaches it with
  in-bounds points (the `nearby` test bounds both coordinates by the radius),
  which the invariant proofs below establish, so the two semantics coincide on
  every reachable call.
-/

namespace Shadowcast

/-- base.rs: `Point(pub i32, pub i32)`. -/
structure Point where
  x : Int
  y : Int
deriving DecidableEq, Repr

instance : Add Point := ⟨fun a b => ⟨a.x + b.x, a.y + b.y⟩⟩

instance : Sub Point := ⟨fun a b => ⟨a.x - b.x, a.y - b.y⟩⟩

instance : Inhabited Point := ⟨⟨0, 0⟩⟩

/-- base.rs: `len_l1`, i.e. the Chebyshev norm `max(|x|, |y|)`. -/
def Point.len_l1 (p : Point) : Int := max (|p.x|) (|p.y|)

/-- base.rs: `len_l2_squared` (computed in i64 in the source, exact here). -/
def Point.len_l2_squared (p : Point) : Int := p.x * p.x + p.y * p.y

/-- base.rs: `Matrix<T>`: a dense rectangular grid with a default value
    returned for out-of-bounds reads. -/
structure Matrix (T : Type) where
  data : List T
  size : Point
  default : T
deriving DecidableEq, Repr

/-- base.rs: `Matrix::new` (`data` has `size.0 * size.1` entries). -/
def Matrix.new (size : Point) (value : T) : Matrix T :=
  { data := List.replicate (size.x * size.y).toNat value
    size := size
    default := value }

/-- base.rs: `Matrix::contains`. -/
def Matrix.contains (m : Matrix T) (p : Point) : Bool :=
  decide (0 ≤ p.x ∧ p.x < m.size.x ∧ 0 ≤ p.y ∧ p.y < m.size.y)

/-- base.rs: `Matrix::index` = `x + y * size.x` for contained points. -/
def Matrix.index (m : Matrix T) (p : Point) : Option Nat :=
  if m.contains p then some (p.x + p.y * m.size.x).toNat else none

/-- base.rs: `Matrix::get`: out-of-bounds reads return the default. -/
def Matrix.get (m : Matrix T) (p : Point) : T :=
  match m.index p with
  | none => m.default
  | some i => m.data.getD i m.default

/-- base.rs: `Matrix::set`: out-of-bounds writes are silent no-ops. -/
def Matrix.set (m : Matrix T) (p : Point) (value : T) : Matrix T :=
  match m.index p with
  | none => m
  | some i => { m with data := m.data.set i value }

/-- base.rs: `Matrix::fill`. -/
def Matrix.fill (m : Matrix T) (value : T) : Matrix T :=
  { m with data := m.data.map (fun _ => value) }

/-- shadowcast.rs: `div_floor` (from truncating division, as in the source). -/
def div_floor (lhs rhs : Int) : Int :=
  let d := lhs.tdiv rhs
  let r := lhs.tmod rhs
  if (0 < r ∧ rhs < 0) ∨ (r < 0 ∧ 0 < rhs) then d - 1 else d

/-- shadowcast.rs: `div_ceil`. -/
def div_ceil (lhs rhs : Int) : Int :=
  let d := lhs.tdiv rhs
  let r := lhs.tmod rhs
  if (0 < r ∧ 0 < rhs) ∨ (r < 0 ∧ rhs < 0) then d + 1 else d

/-- shadowcast.rs: `INITIAL_VISIBILITY`. -/
def INITIAL_VISIBILITY : Int := 100

/-- shadowcast.rs: `VISIBILITY_LOSSES`. -/
def VISIBILITY_LOSSES : List Int := [100, 75, 45, 30, 24, 19, 15]

/-- shadowcast.rs: `Transform([[a00, a01], [a10, a11]])`. -/
structure Transform where
  a00 : Int
  a01 : Int
  a10 : Int
  a11 : Int
deriving DecidableEq, Repr

/-- shadowcast.rs: `impl Mul<Point> for Transform`. -/
def Transform.mul (t : Transform) (p : Point) : Point :=
  ⟨p.x * t.a00 + p.y * t.a10, p.x * t.a01 + p.y * t.a11⟩

/-- shadowcast.rs: the four quadrant transforms. -/
def TRANSFORMS : List Transform :=
  [⟨1, 0, 0, 1⟩, ⟨0, 1, -1, 0⟩, ⟨-1, 0, 0, -1⟩, ⟨0, -1, 1, 0⟩]

/-- shadowcast.rs: `ROT_LEFT_`. -/
def ROT_LEFT_ : Transform := ⟨33, 56, -56, 33⟩

/-- shadowcast.rs: `ROT_RIGHT`. -/
def ROT_RIGHT : Transform := ⟨33, -56, 56, 33⟩

/-- shadowcast.rs: `Slope { num, den }` with invariant `den > 0`. -/
structure Slope where
  num : Int
  den : Int
deriving DecidableEq, Repr

/-- Wrap an integer into the range of `i32`, as Rust's release-mode
    arithmetic does on overflow. -/
def wrap32 (n : Int) : Int := (n + 2 ^ 31) % 2 ^ 32 - 2 ^ 31

/-- shadowcast.rs: `impl Ord for Slope`:
    `(self.num * other.den).cmp(&(other.num * self.den))`, the products being
    computed on `i32` (so they wrap on overflow; a debug build would panic
    instead, and in neither case widens to 64 bits). -/
def Slope.cmp (a b : Slope) : Ordering :=
  let x := wrap32 (a.num * b.den)
  let y := wrap32 (b.num * a.den)
  if x < y then Ordering.lt else if x = y then Ordering.eq else Ordering.gt

/-- shadowcast.rs: `impl PartialEq for Slope`, with the same i32 products. -/
def Slope.beq (a b : Slope) : Bool :=
  decide (wrap32 (a.num * b.den) = wrap32 (b.num * a.den))

/-- The exact rational order on slopes that the source's comment appeals to
    (`a/b < c/d ⟺ ad < bc`, valid since `b, d > 0`).  Used to model the
    comparisons inside the sweep; `slope_cmp_agrees_when_bounded` shows the
    source's 32-bit comparison coincides with it whenever the cross products
    fit in 32 bits (true for every slope a sweep of radius ≤ 23169 builds). -/
def slopeLt (a b : Slope) : Bool := decide (a.num * b.den < b.num * a.den)

/-- Exact `≤` on slopes (see `slopeLt`). -/
def slopeLe (a b : Slope) : Bool := decide (a.num * b.den ≤ b.num * a.den)

/-- Exact equality test on slopes (see `slopeLt`). -/
def slopeEqB (a b : Slope) : Bool := decide (a.num * b.den = b.num * a.den)

/-- `std::cmp::max` on slopes (ties keep the second argument). -/
def slopeMax (a b : Slope) : Slope := if slopeLt b a then a else b

/-- `std::cmp::min` on slopes (ties keep the first argument). -/
def slopeMin (a b : Slope) : Slope := if slopeLt b a then b else a

/-- shadowcast.rs: `SlopeRange`.  The source stores a `&'static Transform`
    and compares these by pointer; the four quadrant transforms are pairwise
    distinct values, so value identity models pointer identity faithfully. -/
structure SlopeRange where
  min : Slope
  max : Slope
  transform : Transform
  visibility : Int
deriving DecidableEq, Repr

/-- shadowcast.rs: `SlopeRanges`. -/
structure SlopeRanges where
  depth : Int
  items : List SlopeRange
deriving DecidableEq, Repr

/-- shadowcast.rs: `VisionArgs`. -/
structure VisionArgs where
  eye : Point
  dir : Point
  opacity_lookup : Point → Int
  initial_visibility : Int

/-- shadowcast.rs: `Vision`. -/
structure Vision where
  radius : Int
  offset : Point
  points_seen : List Point
  visibility : Matrix Int
  prev : SlopeRanges
  next : SlopeRanges
deriving DecidableEq

/-- shadowcast.rs: `Vision::new` (`SlopeRanges::default()` has depth 0 and no
    items). -/
def Vision.new (radius : Int) : Vision :=
  let side := 2 * radius + 1
  { radius := radius
    offset := ⟨0, 0⟩
    points_seen := []
    visibility := Matrix.new ⟨side, side⟩ (-1)
    prev := ⟨0, []⟩
    next := ⟨0, []⟩ }

/-- shadowcast.rs: `Vision::get_points_seen`. -/
def Vision.get_points_seen (v : Vision) : List Point := v.points_seen

/-- shadowcast.rs: `Vision::get_visibility_at`. -/
def Vision.get_visibility_at (v : Vision) (p : Point) : Int :=
  v.visibility.get (p + v.offset)

/-- The reset phase of `Vision::clear` (everything before the center is
    re-seeded): a dense fill of the whole matrix with −1 when the previous
    `points_seen` is long relative to the matrix, else a sparse overwrite of
    just the previously seen cells. -/
def clearReset (v : Vision) : Matrix Int :=
  if v.visibility.data.length < 16 * v.points_seen.length then
    v.visibility.fill (-1)
  else
    v.points_seen.foldl (fun m p => m.set (p + v.offset) (-1)) v.visibility

/-- Which branch the reset phase of `clear` takes (`true` = the sparse
    overwrite, i.e. the `else` branch of the source's `if`). -/
def clearTakesSparse (v : Vision) : Bool :=
  decide (¬ (v.visibility.data.length < 16 * v.points_seen.length))

/-- shadowcast.rs: `Vision::clear`. -/
def Vision.clear (v : Vision) (pos : Point) (visibility : Int) : Vision :=
  let center : Point := ⟨v.radius, v.radius⟩
  { v with
    offset := center - pos
    points_seen := [pos]
    visibility := (clearReset v).set center visibility
    prev := ⟨1, []⟩
    next := ⟨2, []⟩ }

/-- seed_ranges computes the inverse of a quadrant transform by negating the
    off-diagonal entries. -/
def Transform.inverse (t : Transform) : Transform := ⟨t.a00, -t.a01, -t.a10, t.a11⟩

/-- The per-quadrant target-band clip of `seed_ranges` (single-target mode);
    `none` models the `continue`. -/
def targetClip (t : Transform) (target : Point) (mn mx : Slope) :
    Option (Slope × Slope) :=
  let p := t.inverse.mul target
  if p.x = 0 ∨ p.x < |p.y| then none
  else some (slopeMax mn ⟨2 * p.y - 1, 2 * p.x⟩, slopeMin mx ⟨2 * p.y + 1, 2 * p.x⟩)

/-- The optional target clip (`if let Some(target) = target` in the source). -/
def applyTarget (t : Transform) (target : Option Point) (mn mx : Slope) :
    Option (Slope × Slope) :=
  match target with
  | none => some (mn, mx)
  | some tgt => targetClip t tgt mn mx

/-- The per-quadrant casework of `seed_ranges` when a facing direction is
    supplied; `none` models the `continue`. -/
def dirClip (t : Transform) (dir : Point) : Option (Slope × Slope) :=
  let p := t.inverse.mul dir
  let l := ROT_LEFT_.mul p
  let r := ROT_RIGHT.mul p
  let mn : Slope := ⟨-1, 1⟩
  let mx : Slope := ⟨1, 1⟩
  if p.x < 0 then
    if p.y = 0 then none
    else if 0 < p.y then
      if r.x ≤ 0 then none else some (slopeMax mn ⟨r.y, r.x⟩, mx)
    else
      if l.x ≤ 0 then none else some (mn, slopeMin mx ⟨l.y, l.x⟩)
  else
    let mx := if 0 < l.x then slopeMin mx ⟨l.y, l.x⟩ else mx
    let mn := if 0 < r.x then slopeMax mn ⟨r.y, r.x⟩ else mn
    some (mn, mx)

/-- One quadrant of `Vision::seed_ranges`: the seeded range, if any. -/
def seedQuadrant (dir : Point) (target : Option Point) (t : Transform) :
    Option SlopeRange :=
  let base : Option (Slope × Slope) :=
    if dir = (⟨0, 0⟩ : Point) then some (⟨-1, 1⟩, ⟨1, 1⟩) else dirClip t dir
  match base with
  | none => none
  | some (mn, mx) =>
    match applyTarget t target mn mx with
    | none => none
    | some (mn, mx) =>
      if slopeLe mx mn then none
      else some { min := mn, max := mx, transform := t, visibility := INITIAL_VISIBILITY }

/-- shadowcast.rs: `Vision::seed_ranges`. -/
def Vision.seed_ranges (v : Vision) (dir : Point) (target : Option Point) : Vision :=
  { v with
    prev := { v.prev with
      items := v.prev.items ++ TRANSFORMS.filterMap (seedQuadrant dir target) } }

/-- The mutable state threaded through one depth row of `execute`. -/
structure RowState where
  vis : Matrix Int
  seen : List Point
  out : List SlopeRange
deriving DecidableEq

/-- The `push` closure of `execute`: emit a range onto the next list, merging
    with the tail when the intervals abut with identical visibility and
    transform (the source compares the transforms by pointer; see
    `SlopeRange`). -/
def pushRange (items : List SlopeRange) (s : SlopeRange) : List SlopeRange :=
  match items.getLast? with
  | some x =>
    if slopeEqB x.max s.min ∧ x.visibility = s.visibility ∧ x.transform = s.transform
    then items.dropLast ++ [{ x with max := s.max }]
    else items ++ [s]
  | none => items ++ [s]

/-- The cell-classification closure of `execute` for the cell `(depth, w)` in
    the quadrant frame of transform `t`, entered with range visibility `rv`
    (`r2 = radius² + radius`).  Out-of-range cells are classified −1 before
    the opacity oracle is consulted. -/
def nextVisibility (loss : Int → Int → Int → Int) (f : Point → Int) (eye : Point)
    (r2 : Int) (t : Transform) (rv depth w : Int) : Int :=
  let nearby := depth * depth + w * w ≤ r2
  if ¬ nearby then -1
  else
    let opacity := f (t.mul ⟨depth, w⟩ + eye)
    if opacity = 0 then rv
    else if rv ≤ opacity then 0
    else max (rv - loss w depth opacity) 0

/-- The body of the width loop of `execute`, for one cell `(depth, w)` in the
    quadrant frame.  The accumulator carries the running `min`, the previous
    cell's visibility and the mutable state. -/
def cellStep (loss : Int → Int → Int → Int) (f : Point → Int) (eye center : Point)
    (r2 : Int) (t : Transform) (rv : Int) (depth : Int)
    (acc : Slope × Int × RowState) (w : Int) : Slope × Int × RowState :=
  let minS := acc.1
  let prevV := acc.2.1
  let rs := acc.2.2
  let point := t.mul ⟨depth, w⟩
  let nextV : Int := nextVisibility loss f eye r2 t rv depth w
  let rs :=
    if 0 ≤ nextV then
      let old := rs.vis.get (point + center)
      { rs with
        vis := rs.vis.set (point + center) (max old nextV)
        seen := if old < 0 then rs.seen ++ [point + eye] else rs.seen }
    else rs
  if prevV ≠ nextV ∧ 0 ≤ prevV then
    let slope : Slope := ⟨2 * w - 1, 2 * depth⟩
    let rs :=
      if 0 < prevV then
        { rs with
          out := pushRange rs.out
            { min := minS, max := slope, transform := t, visibility := prevV } }
      else rs
    (slope, nextV, rs)
  else (minS, nextV, rs)

/-- `intRangeAux lo n` is the list `[lo, lo+1, …, lo+n-1]`. -/
def intRangeAux (lo : Int) : Nat → List Int
  | 0 => []
  | Nat.succ n => lo :: intRangeAux (lo + 1) n

/-- The inclusive integer interval `lo..=hi` (empty when `hi < lo`),
    modelling iteration of the Rust range `start..=limit`. -/
def intRange (lo hi : Int) : List Int := intRangeAux lo (hi + 1 - lo).toNat

/-- One slope range of one depth row of `execute`. -/
def processRange (loss : Int → Int → Int → Int) (f : Point → Int)
    (eye center : Point) (r2 : Int) (depth : Int)
    (rs : RowState) (r : SlopeRange) : RowState :=
  let start := div_floor (2 * r.min.num * depth + r.min.den) (2 * r.min.den)
  let fin := div_ceil (2 * r.max.num * depth - r.max.den) (2 * r.max.den)
  let res := (intRange start fin).foldl
    (cellStep loss f eye center r2 r.transform r.visibility depth) (r.min, -1, rs)
  if 0 < res.2.1 then
    { res.2.2 with
      out := pushRange res.2.2.out
        { min := res.1, max := r.max, transform := r.transform, visibility := res.2.1 } }
  else res.2.2

/-- The while loop of `execute`.  Each iteration advances `prev.depth` by one
    (the `prev`/`next` lists leapfrog, with `next.depth = prev.depth + 1`
    established by `clear`), so the fuel below is exactly the number of
    remaining iterations; when it reaches zero the loop condition is false. -/
def executeFuel (loss : Int → Int → Int → Int) (f : Point → Int) (eye : Point)
    (radius limit : Int) : Nat → Vision → Vision
  | 0, st => st
  | Nat.succ fuel, st =>
    if st.prev.depth ≤ limit ∧ st.prev.items ≠ [] then
      let depth := st.prev.depth
      let center : Point := ⟨radius, radius⟩
      let r2 := radius * radius + radius
      let rs := st.prev.items.foldl (processRange loss f eye center r2 depth)
        ⟨st.visibility, st.points_seen, st.next.items⟩
      executeFuel loss f eye radius limit fuel
        { st with
          visibility := rs.vis
          points_seen := rs.seen
          prev := { depth := st.next.depth, items := rs.out }
          next := { depth := depth + 2, items := [] } }
    else st

/-- shadowcast.rs: `Vision::execute` (see `executeFuel` for the loop). -/
def Vision.execute (v : Vision) (loss : Int → Int → Int → Int) (eye : Point)
    (limit : Int) (f : Point → Int) : Vision :=
  executeFuel loss f eye v.radius limit (limit + 1 - v.prev.depth).toNat v

/-- shadowcast.rs: `Vision::compute`. -/
def Vision.compute (v : Vision) (loss : Int → Int → Int → Int)
    (args : VisionArgs) : Vision :=
  ((v.clear args.eye args.initial_visibility).seed_ranges args.dir none).execute
    loss args.eye v.radius args.opacity_lookup

/-- shadowcast.rs: `Vision::can_see`; returns the result together with the
    final state of the (mutably borrowed) `Vision`. -/
def Vision.can_see (v : Vision) (loss : Int → Int → Int → Int)
    (args : VisionArgs) (target : Point) : Bool × Vision :=
  if args.eye = target then (true, v)
  else
    let radius := v.radius
    let r2 := radius * radius + radius
    let d := target - args.eye
    if r2 < d.x * d.x + d.y * d.y then (false, v)
    else
      let limit := max (|d.x|) (|d.y|)
      let v1 := v.clear args.eye args.initial_visibility
      let v2 := v1.seed_ranges args.dir (some (target - args.eye))
      let v3 := v2.execute loss args.eye limit args.opacity_lookup
      (decide (0 ≤ v3.get_visibility_at target), v3)

/-! ### Proof-infrastructure definitions -/

/-- Two visibility matrices that agree everywhere except possibly at the
    index of the centre cell `(radius, radius)`, sharing size, default and
    data length.  This is the coupling used to show the sweep never reads or
    writes the centre cell. -/
def AgreeOffCenter (radius : Int) (m₁ m₂ : Matrix Int) : Prop :=
  m₁.size = m₂.size ∧ m₁.default = m₂.default ∧
  m₁.data.length = m₂.data.length ∧
  ∀ i d, ¬ (m₁.index (⟨radius, radius⟩ : Point) = some i) →
    m₁.data.getD i d = m₂.data.getD i d

/-- The shape facts of a Vision's scratch matrix: square of side
    `2·radius + 1`, default −1, and a fully allocated data buffer. -/
def MatrixDims (radius : Int) (m : Matrix Int) : Prop :=
  m.size = ⟨2 * radius + 1, 2 * radius + 1⟩ ∧ m.default = -1 ∧
  m.data.length = ((2 * radius + 1) * (2 * radius + 1)).toNat

/-- The state invariant of the sweep that claim C5 is about: the matrix is
    well-shaped; a world point reads nonnegative visibility exactly when it
    was recorded in `points_seen`; the eye's cell (the matrix centre) holds
    the initial visibility; the eye is the first point seen; and every lit
    point lies within the squared-L2 budget `radius² + radius` of the eye. -/
def VisInv (radius : Int) (eye : Point) (iv : Int) (vis : Matrix Int)
    (seen : List Point) : Prop :=
  MatrixDims radius vis ∧
  (∀ p : Point, 0 ≤ vis.get (p + ((⟨radius, radius⟩ : Point) - eye)) ↔ p ∈ seen) ∧
  vis.get (⟨radius, radius⟩ : Point) = iv ∧
  seen.head? = some eye ∧
  (∀ p : Point, 0 ≤ vis.get (p + ((⟨radius, radius⟩ : Point) - eye)) →
    (p - eye).len_l2_squared ≤ radius * radius + radius)

/-- The half-width of the in-range disk at a given depth: the integer part of
    the square root of `r2 - d²` (meaningful when `d² ≤ r2`), so that a cell
    `(d, w)` passes the sweep's `nearby` test exactly when `|w|` is at most
    this value. -/
def circW (r2 d : Int) : Int := (Nat.sqrt (r2 - d * d).toNat : Int)

/-- The shape of a slope range produced by the sweep in fully open terrain,
    about to be processed at depth `d`: the lower bound is still the seeded
    −1/1, the visibility is still the seeded 100, the upper bound is a
    positive slope at most 1/1 (either still the seeded 1/1 or a split slope
    with denominator `2·e` for some earlier row `e < d`), and the range still
    covers every in-disk cell of row `d` on the nonnegative side. -/
def OpenRange (radius d : Int) (t : Transform) (rg : SlopeRange) : Prop :=
  rg.min = ⟨-1, 1⟩ ∧ rg.transform = t ∧ rg.visibility = INITIAL_VISIBILITY ∧
  0 < rg.max.num ∧ 0 < rg.max.den ∧ rg.max.num ≤ rg.max.den ∧
  (rg.max = ⟨1, 1⟩ ∨ rg.max.den ≤ 2 * (d - 1)) ∧
  (∀ w : Int, 0 ≤ w → w ≤ min d (circW (radius * radius + radius) d) →
    (2 * w - 1) * rg.max.den < 2 * rg.max.num * d)

theorem wrap32_eq_self {n : Int} (h : |n| < 2 ^ 31) : wrap32 n = n := by
  unfold wrap32
  rw [abs_lt] at h
  have h1 : (n + 2 ^ 31) % 2 ^ 32 = n + 2 ^ 31 := Int.emod_eq_of_lt (by omega) (by omega)
  omega

@[simp] theorem Point.add_def (a b : Point) : a + b = ⟨a.x + b.x, a.y + b.y⟩ := rfl

@[simp] theorem Point.sub_def (a b : Point) : a - b = ⟨a.x - b.x, a.y - b.y⟩ := rfl

theorem radius_sq_add_nonneg (r : Int) : 0 ≤ r * r + r := by
  rcases le_or_lt 0 r with h | h
  · have h2 := mul_nonneg h h
    linarith
  · have h1 : (-r) * 1 ≤ (-r) * (-r) := by
      apply mul_le_mul_of_nonneg_left <;> omega
    nlinarith

theorem Matrix.set_size (m : Matrix T) (p : Point) (val : T) :
    (m.set p val).size = m.size := by
  unfold Matrix.set
  split <;> rfl

theorem Matrix.set_length (m : Matrix T) (p : Point) (val : T) :
    (m.set p val).data.length = m.data.length := by
  unfold Matrix.set
  split
  · rfl
  · simp

theorem Matrix.set_index (m : Matrix T) (p : Point) (val : T) (q : Point) :
    (m.set p val).index q = m.index q := by
  have h := Matrix.set_size m p val
  unfold Matrix.index Matrix.contains
  rw [h]

theorem Matrix.getD_set (m : Matrix Int) (p : Point) (val : Int) (i : Nat)
    (hi : i < m.data.length) :
    (m.set p val).data.getD i (-1) =
      if m.index p = some i then val else m.data.getD i (-1) := by
  unfold Matrix.set
  rcases hip : m.index p with _ | j
  · simp
  · by_cases hj : j = i
    · subst hj
      simp [List.getD_eq_getElem?_getD, List.getElem?_set_self hi]
    · simp [List.getD_eq_getElem?_getD, List.getElem?_set_ne hj, hj]

theorem foldl_set_length (off : Point) (ps : List Point) (m : Matrix Int) :
    (ps.foldl (fun acc p => acc.set (p + off) (-1)) m).data.length =
      m.data.length := by
  induction ps generalizing m with
  | nil => rfl
  | cons p ps ih => rw [List.foldl_cons, ih, Matrix.set_length]

theorem foldl_set_index (off : Point) (ps : List Point) (m : Matrix Int) (q : Point) :
    (ps.foldl (fun acc p => acc.set (p + off) (-1)) m).index q = m.index q := by
  induction ps generalizing m with
  | nil => rfl
  | cons p ps ih => rw [List.foldl_cons, ih, Matrix.set_index]

theorem foldl_set_getD (off : Point) (ps : List Point) (m : Matrix Int)
    (i : Nat) (hi : i < m.data.length) :
    (ps.foldl (fun acc p => acc.set (p + off) (-1)) m).data.getD i (-1) =
      if ∃ p ∈ ps, m.index (p + off) = some i then -1
      else m.data.getD i (-1) := by
  induction ps generalizing m with
  | nil => simp
  | cons p ps ih =>
    rw [List.foldl_cons]
    have hlen : i < (m.set (p + off) (-1)).data.length := by
      rw [Matrix.set_length]; exact hi
    rw [ih _ hlen]
    simp only [Matrix.set_index, Matrix.getD_set _ _ _ _ hi, List.mem_cons,
      exists_eq_or_imp]
    by_cases hA : ∃ q ∈ ps, m.index (q + off) = some i
    · rw [if_pos hA, if_pos (Or.inr hA)]
    · rw [if_neg hA]
      by_cases hB : m.index (p + off) = some i
      · rw [if_pos hB, if_pos (Or.inl hB)]
      · rw [if_neg hB, if_neg (not_or.mpr ⟨hB, hA⟩)]

theorem getD_map_const (l : List Int) (i : Nat) :
    (l.map (fun _ => (-1 : Int))).getD i (-1) = -1 := by
  rw [List.getD_eq_getElem?_getD, List.getElem?_map]
  rcases l[i]? with _ | x <;> simp

theorem getD_congr_of_lt (l : List Int) (i : Nat) (h : i < l.length) (d e : Int) :
    l.getD i d = l.getD i e := by
  rw [List.getD_eq_getElem?_getD, List.getD_eq_getElem?_getD, List.getElem?_eq_getElem h]
  rfl

theorem Matrix.set_default (m : Matrix T) (p : Point) (val : T) :
    (m.set p val).default = m.default := by
  unfold Matrix.set
  split <;> rfl

theorem Matrix.index_inj (m : Matrix T) (p q : Point) (i : Nat)
    (hp : m.index p = some i) (hq : m.index q = some i) : p = q := by
  unfold Matrix.index Matrix.contains at hp hq
  split at hp
  case isFalse => exact absurd hp (by simp)
  case isTrue hcp =>
  split at hq
  case isFalse => exact absurd hq (by simp)
  case isTrue hcq =>
  rw [decide_eq_true_eq] at hcp hcq
  obtain ⟨px, py⟩ := p
  obtain ⟨qx, qy⟩ := q
  obtain ⟨hp1, hp2, hp3, hp4⟩ := hcp
  obtain ⟨hq1, hq2, hq3, hq4⟩ := hcq
  injection hp with hp
  injection hq with hq
  dsimp only at hp1 hp2 hp3 hp4 hq1 hq2 hq3 hq4 hp hq
  have hsx : 0 < m.size.x := lt_of_le_of_lt hp1 hp2
  have hpn : 0 ≤ px + py * m.size.x := by
    have := mul_nonneg hp3 (le_of_lt hsx)
    omega
  have hqn : 0 ≤ qx + qy * m.size.x := by
    have := mul_nonneg hq3 (le_of_lt hsx)
    omega
  have heq : px + py * m.size.x = qx + qy * m.size.x := by omega
  have hy : py = qy := by
    rcases lt_trichotomy py qy with h | h | h
    · exfalso
      have h1 : (py + 1) * m.size.x ≤ qy * m.size.x :=
        mul_le_mul_of_nonneg_right (by omega) (le_of_lt hsx)
      nlinarith
    · exact h
    · exfalso
      have h1 : (qy + 1) * m.size.x ≤ py * m.size.x :=
        mul_le_mul_of_nonneg_right (by omega) (le_of_lt hsx)
      nlinarith
  subst hy
  have hx : px = qx := by
    have : px + py * m.size.x = qx + py * m.size.x := heq
    omega
  rw [hx]

theorem Matrix.get_set_of_index (m : Matrix Int) {q : Point} {i : Nat}
    (hq : m.index q = some i) (hi : i < m.data.length) (val : Int) (p : Point) :
    (m.set q val).get p = if p = q then val else m.get p := by
  have hset : m.set q val = { m with data := m.data.set i val } := by
    unfold Matrix.set
    rw [hq]
  unfold Matrix.get
  rw [Matrix.set_index, hset]
  dsimp only
  rcases hip : m.index p with _ | j
  · have hne : ¬ p = q := by
      intro he
      rw [he, hq] at hip
      exact absurd hip (by simp)
    rw [if_neg hne]
  · by_cases hji : j = i
    · subst hji
      have he : p = q := Matrix.index_inj m p q j hip hq
      rw [if_pos he]
      simp only [List.getD_eq_getElem?_getD, List.getElem?_set_self hi]
      rfl
    · have hne : ¬ p = q := by
        intro he
        rw [he, hq] at hip
        injection hip with h2
        exact hji h2.symm
      rw [if_neg hne]
      simp only [List.getD_eq_getElem?_getD, List.getElem?_set_ne (fun h => hji h.symm)]

theorem bound_of_sq_le {d r : Int} (h : d * d ≤ r * r + r) (hr : 0 ≤ r) :
    -r ≤ d ∧ d ≤ r := by
  constructor
  · by_contra hc
    push_neg at hc
    have h1 : r + 1 ≤ -d := by omega
    have h2 : (r + 1) * (r + 1) ≤ (-d) * (-d) :=
      mul_le_mul h1 h1 (by omega) (by omega)
    nlinarith
  · by_contra hc
    push_neg at hc
    have h1 : r + 1 ≤ d := by omega
    have h2 : (r + 1) * (r + 1) ≤ d * d := mul_le_mul h1 h1 (by omega) (by omega)
    nlinarith

theorem mem_TRANSFORMS_iff (t : Transform) :
    t ∈ TRANSFORMS ↔ t = ⟨1, 0, 0, 1⟩ ∨ t = ⟨0, 1, -1, 0⟩ ∨
      t = ⟨-1, 0, 0, -1⟩ ∨ t = ⟨0, -1, 1, 0⟩ := by
  simp [TRANSFORMS]

theorem transform_mul_ne_zero {t : Transform} (ht : t ∈ TRANSFORMS) {d : Int}
    (w : Int) (hd : 1 ≤ d) : t.mul ⟨d, w⟩ ≠ (⟨0, 0⟩ : Point) := by
  rw [mem_TRANSFORMS_iff] at ht
  rcases ht with h | h | h | h <;> subst h <;> intro hc <;>
    simp only [Transform.mul, Point.mk.injEq] at hc <;> omega

theorem transform_point_in_bounds {t : Transform} (ht : t ∈ TRANSFORMS)
    {d w r : Int} (hr : 0 ≤ r) (hn : d * d + w * w ≤ r * r + r) :
    -r ≤ (t.mul ⟨d, w⟩).x ∧ (t.mul ⟨d, w⟩).x ≤ r ∧
    -r ≤ (t.mul ⟨d, w⟩).y ∧ (t.mul ⟨d, w⟩).y ≤ r := by
  have hd := bound_of_sq_le (by nlinarith [mul_self_nonneg w]) hr
  have hw := bound_of_sq_le (by nlinarith [mul_self_nonneg d]) hr
  rw [mem_TRANSFORMS_iff] at ht
  rcases ht with h | h | h | h <;> subst h <;> simp [Transform.mul] <;> omega

theorem pushRange_transforms {items : List SlopeRange} {s : SlopeRange}
    (h : ∀ x ∈ items, x.transform ∈ TRANSFORMS) (hs : s.transform ∈ TRANSFORMS) :
    ∀ x ∈ pushRange items s, x.transform ∈ TRANSFORMS := by
  unfold pushRange
  rcases hl : items.getLast? with _ | x
  · intro y hy
    rcases List.mem_append.mp hy with h1 | h1
    · exact h y h1
    · rw [List.mem_singleton] at h1
      rw [h1]
      exact hs
  · intro y hy
    dsimp only at hy
    by_cases hcond : (slopeEqB x.max s.min = true ∧ x.visibility = s.visibility ∧
      x.transform = s.transform)
    · rw [if_pos hcond] at hy
      rcases List.mem_append.mp hy with h1 | h1
      · exact h y (List.dropLast_subset _ h1)
      · rw [List.mem_singleton] at h1
        rw [h1]
        exact h x (List.mem_of_mem_getLast? hl)
    · rw [if_neg hcond] at hy
      rcases List.mem_append.mp hy with h1 | h1
      · exact h y h1
      · rw [List.mem_singleton] at h1
        rw [h1]
        exact hs

theorem foldl_inv {α β : Type} (P : α → Prop) (Q : β → Prop) (f : α → β → α)
    (l : List β) (hl : ∀ b ∈ l, Q b) (h : ∀ a b, Q b → P a → P (f a b)) :
    ∀ a, P a → P (l.foldl f a) := by
  induction l with
  | nil => exact fun a ha => ha
  | cons b l ih =>
    intro a ha
    rw [List.foldl_cons]
    exact ih (fun x hx => hl x (List.mem_cons_of_mem _ hx)) _
      (h a b (hl b (List.mem_cons_self _ _)) ha)

theorem foldl_rel {α β : Type} (R : α → α → Prop) (Q : β → Prop) (f : α → β → α)
    (l : List β) (hl : ∀ b ∈ l, Q b)
    (h : ∀ a₁ a₂ b, Q b → R a₁ a₂ → R (f a₁ b) (f a₂ b)) :
    ∀ a₁ a₂, R a₁ a₂ → R (l.foldl f a₁) (l.foldl f a₂) := by
  induction l with
  | nil => exact fun a₁ a₂ ha => ha
  | cons b l ih =>
    intro a₁ a₂ ha
    rw [List.foldl_cons, List.foldl_cons]
    exact ih (fun x hx => hl x (List.mem_cons_of_mem _ hx)) _ _
      (h a₁ a₂ b (hl b (List.mem_cons_self _ _)) ha)

/-! ## Claim C4: the slope comparison -/

/-- C4 counterexample: the claim says the slope comparison widens its operands
    to 64-bit so that it matches the exact rational ordering for denominators
    up to twice a radius in the tens of thousands.  The source multiplies the
    operands as `i32`; with the in-contract slopes 46341/1 and 1/46341
    (denominators ≤ 2·radius for radius 23171) the 32-bit product wraps and
    the comparison answers `lt` although 46341/1 > 1/46341. -/
theorem slope_cmp_not_64bit :
    Slope.cmp ⟨46341, 1⟩ ⟨1, 46341⟩ = Ordering.lt ∧
    ((1 : ℚ) / 46341 < (46341 : ℚ) / 1) := by
  constructor
  · decide
  · norm_num

/-- C4 (amended): the slope comparison computes the cross products
    `a.num·b.den` and `b.num·a.den` in 32-bit arithmetic; whenever both
    products fit in `i32` (in particular for every slope a sweep builds when
    the radius is at most 23169, since those have `|num| ≤ 2·radius + 1` and
    `0 < den ≤ 2·radius`) the result equals the exact rational ordering of
    the two slopes. -/
theorem slope_cmp_agrees_when_bounded (a b : Slope)
    (ha : 0 < a.den) (hb : 0 < b.den)
    (h1 : |a.num * b.den| < 2 ^ 31) (h2 : |b.num * a.den| < 2 ^ 31) :
    (Slope.cmp a b = Ordering.lt ↔ (a.num : ℚ) / a.den < (b.num : ℚ) / b.den) ∧
    (Slope.cmp a b = Ordering.eq ↔ (a.num : ℚ) / a.den = (b.num : ℚ) / b.den) ∧
    (Slope.cmp a b = Ordering.gt ↔ (b.num : ℚ) / b.den < (a.num : ℚ) / a.den) := by
  have haq : (0 : ℚ) < (a.den : ℚ) := by exact_mod_cast ha
  have hbq : (0 : ℚ) < (b.den : ℚ) := by exact_mod_cast hb
  have hlt : ((a.num : ℚ) / a.den < (b.num : ℚ) / b.den) ↔
      a.num * b.den < b.num * a.den := by
    rw [div_lt_div_iff₀ haq hbq]
    exact_mod_cast Iff.rfl
  have heq : ((a.num : ℚ) / a.den = (b.num : ℚ) / b.den) ↔
      a.num * b.den = b.num * a.den := by
    rw [div_eq_div_iff (ne_of_gt haq) (ne_of_gt hbq)]
    exact_mod_cast Iff.rfl
  have hgt : ((b.num : ℚ) / b.den < (a.num : ℚ) / a.den) ↔
      b.num * a.den < a.num * b.den := by
    rw [div_lt_div_iff₀ hbq haq]
    exact_mod_cast Iff.rfl
  unfold Slope.cmp
  rw [wrap32_eq_self h1, wrap32_eq_self h2]
  rw [hlt, heq, hgt]
  dsimp only
  split_ifs with hx hy
  all_goals refine ⟨?_, ?_, ?_⟩ <;> constructor <;> intro h <;>
    first
      | rfl
      | exact hx
      | exact hy
      | omega
      | exact absurd h (by simp)

/-- Witness for `slope_cmp_agrees_when_bounded` at the slopes 1/2 and 2/3. -/
theorem slope_cmp_agrees_witness :
    Slope.cmp ⟨1, 2⟩ ⟨2, 3⟩ = Ordering.lt ∧ ((1 : ℚ) / 2 < (2 : ℚ) / 3) := by
  have h := slope_cmp_agrees_when_bounded ⟨1, 2⟩ ⟨2, 3⟩
    (by decide) (by decide) (by decide) (by decide)
  have hq : ((1 : ℚ) / 2 < (2 : ℚ) / 3) := by norm_num
  exact ⟨h.1.mpr hq, hq⟩

/-! ## Claim C6: cell classification during the sweep -/

/-- C6: during the sweep, a cell at quadrant-frame coordinates
    `(depth, width)` with `depth² + width² > radius² + radius` is classified
    unseen (−1) without querying the oracle (the classification is the same
    under every oracle); a cell whose opacity is 0 gets the incoming range
    visibility unchanged; and a cell whose opacity is at least the incoming
    range visibility gets 0 (every range carries positive visibility: seeds
    carry 100 and `execute` only emits ranges with `prev_visibility > 0`). -/
theorem cell_classification (loss : Int → Int → Int → Int) (f : Point → Int)
    (eye : Point) (radius : Int) (t : Transform) (rv depth w : Int) :
    (radius * radius + radius < depth * depth + w * w →
      nextVisibility loss f eye (radius * radius + radius) t rv depth w = -1 ∧
      ∀ g : Point → Int,
        nextVisibility loss g eye (radius * radius + radius) t rv depth w =
          nextVisibility loss f eye (radius * radius + radius) t rv depth w) ∧
    (depth * depth + w * w ≤ radius * radius + radius →
      f (t.mul ⟨depth, w⟩ + eye) = 0 →
      nextVisibility loss f eye (radius * radius + radius) t rv depth w = rv) ∧
    (depth * depth + w * w ≤ radius * radius + radius →
      0 < rv → rv ≤ f (t.mul ⟨depth, w⟩ + eye) →
      nextVisibility loss f eye (radius * radius + radius) t rv depth w = 0) := by
  refine ⟨?_, ?_, ?_⟩
  · intro h
    have hn : ¬ (depth * depth + w * w ≤ radius * radius + radius) := by omega
    constructor
    · simp only [nextVisibility]
      rw [if_pos hn]
    · intro g
      simp only [nextVisibility]
      rw [if_pos hn, if_pos hn]
  · intro h h0
    simp only [nextVisibility]
    rw [if_neg (not_not_intro h), if_pos h0]
  · intro h hrv hle
    have hne : ¬ f (t.mul ⟨depth, w⟩ + eye) = 0 := by omega
    simp only [nextVisibility]
    rw [if_neg (not_not_intro h), if_neg hne, if_pos hle]

/-- Witness for `cell_classification` with radius 1 at the cells (2,0)
    (out of range), (1,0) against a transparent oracle, and (1,0) against a
    fully blocking oracle. -/
theorem cell_classification_witness :
    nextVisibility (fun _ _ o => o) (fun _ => 0) ⟨0, 0⟩ (1 * 1 + 1)
      ⟨1, 0, 0, 1⟩ 100 2 0 = -1 ∧
    nextVisibility (fun _ _ o => o) (fun _ => 0) ⟨0, 0⟩ (1 * 1 + 1)
      ⟨1, 0, 0, 1⟩ 100 1 0 = 100 ∧
    nextVisibility (fun _ _ o => o) (fun _ => 200) ⟨0, 0⟩ (1 * 1 + 1)
      ⟨1, 0, 0, 1⟩ 100 1 0 = 0 :=
  ⟨((cell_classification (fun _ _ o => o) (fun _ => 0) ⟨0, 0⟩ 1
      ⟨1, 0, 0, 1⟩ 100 2 0).1 (by decide)).1,
   (cell_classification (fun _ _ o => o) (fun _ => 0) ⟨0, 0⟩ 1
      ⟨1, 0, 0, 1⟩ 100 1 0).2.1 (by decide) (by decide),
   (cell_classification (fun _ _ o => o) (fun _ => 200) ⟨0, 0⟩ 1
      ⟨1, 0, 0, 1⟩ 100 1 0).2.2 (by decide) (by decide) (by decide)⟩

/-! ## Claim C7: the structure of can_see -/

/-- C7: `can_see` returns true when the target is the eye; false when the
    squared L2 norm of `target − eye` exceeds `radius² + radius`; and
    otherwise runs the sweep with limit `chebyshev(target − eye)` and returns
    whether the target's visibility is nonnegative. -/
theorem can_see_cases (v : Vision) (loss : Int → Int → Int → Int)
    (args : VisionArgs) (target : Point) :
    (args.eye = target → (v.can_see loss args target).1 = true) ∧
    (v.radius * v.radius + v.radius < (target - args.eye).len_l2_squared →
      (v.can_see loss args target).1 = false) ∧
    (args.eye ≠ target →
      (target - args.eye).len_l2_squared ≤ v.radius * v.radius + v.radius →
      (v.can_see loss args target).1 =
        decide (0 ≤ ((((v.clear args.eye args.initial_visibility).seed_ranges
          args.dir (some (target - args.eye))).execute loss args.eye
          ((target - args.eye).len_l1) args.opacity_lookup).get_visibility_at
            target))) := by
  refine ⟨?_, ?_, ?_⟩
  · intro h
    simp [Vision.can_see, h]
  · intro h
    have hne : ¬ args.eye = target := by
      intro he
      rw [he] at h
      simp only [Point.sub_def, Point.len_l2_squared, sub_self] at h
      have := radius_sq_add_nonneg v.radius
      omega
    rw [Point.len_l2_squared] at h
    simp only [Vision.can_see, hne, if_false, if_pos h]
  · intro hne h
    rw [Point.len_l2_squared] at h
    simp only [Vision.can_see, hne, if_false, not_lt.mpr h, if_neg (not_lt.mpr h)]
    rfl

/-- Witness for `can_see_cases` with radius 1, the eye at the origin and a
    transparent map, at the targets (0,0), (5,5) and (1,0). -/
theorem can_see_cases_witness :
    ((Vision.new 1).can_see (fun _ _ o => o)
      ⟨⟨0, 0⟩, ⟨0, 0⟩, fun _ => 0, 100⟩ ⟨0, 0⟩).1 = true ∧
    ((Vision.new 1).can_see (fun _ _ o => o)
      ⟨⟨0, 0⟩, ⟨0, 0⟩, fun _ => 0, 100⟩ ⟨5, 5⟩).1 = false ∧
    ((Vision.new 1).can_see (fun _ _ o => o)
      ⟨⟨0, 0⟩, ⟨0, 0⟩, fun _ => 0, 100⟩ ⟨1, 0⟩).1 =
      decide (0 ≤ (((((Vision.new 1).clear ⟨0, 0⟩ 100).seed_ranges
        ⟨0, 0⟩ (some ((⟨1, 0⟩ : Point) - ⟨0, 0⟩))).execute (fun _ _ o => o) ⟨0, 0⟩
        (((⟨1, 0⟩ : Point) - ⟨0, 0⟩).len_l1) (fun _ => 0)).get_visibility_at
          ⟨1, 0⟩)) :=
  ⟨(can_see_cases (Vision.new 1) (fun _ _ o => o)
      ⟨⟨0, 0⟩, ⟨0, 0⟩, fun _ => 0, 100⟩ ⟨0, 0⟩).1 rfl,
   (can_see_cases (Vision.new 1) (fun _ _ o => o)
      ⟨⟨0, 0⟩, ⟨0, 0⟩, fun _ => 0, 100⟩ ⟨5, 5⟩).2.1 (by decide),
   (can_see_cases (Vision.new 1) (fun _ _ o => o)
      ⟨⟨0, 0⟩, ⟨0, 0⟩, fun _ => 0, 100⟩ ⟨1, 0⟩).2.2 (by decide) (by decide)⟩

/-! ## Claim C10: the short-circuit paths of can_see do not touch the state -/

/-- C10: when `can_see` short-circuits (the target is the eye, or the squared
    L2 norm of `target − eye` exceeds `radius² + radius`) it returns without
    modifying any Vision state: `points_seen`, the visibility matrix, the
    offset and both slope-range lists are exactly as before the call. -/
theorem can_see_short_circuit_pure (v : Vision) (loss : Int → Int → Int → Int)
    (args : VisionArgs) (target : Point)
    (h : args.eye = target ∨
      v.radius * v.radius + v.radius < (target - args.eye).len_l2_squared) :
    (v.can_see loss args target).2 = v := by
  rcases h with h | h
  · simp [Vision.can_see, h]
  · have hne : ¬ args.eye = target := by
      intro he
      rw [he] at h
      simp only [Point.sub_def, Point.len_l2_squared, sub_self] at h
      have := radius_sq_add_nonneg v.radius
      omega
    rw [Point.len_l2_squared] at h
    simp only [Vision.can_see, hne, if_false, if_pos h]

/-- Witness for `can_see_short_circuit_pure` with the target equal to the
    eye. -/
theorem can_see_short_circuit_witness :
    ((Vision.new 1).can_see (fun _ _ o => o)
      ⟨⟨0, 0⟩, ⟨0, 0⟩, fun _ => 0, 100⟩ ⟨0, 0⟩).2 = Vision.new 1 :=
  can_see_short_circuit_pure (Vision.new 1) (fun _ _ o => o)
    ⟨⟨0, 0⟩, ⟨0, 0⟩, fun _ => 0, 100⟩ ⟨0, 0⟩ (Or.inl rfl)

/-! ## Claim C3: the reset strategy of clear -/

/-- C3 counterexample: the claim says `clear` selects the sparse reset exactly
    when `points_seen.len · 16 > matrix cells`.  On a freshly constructed
    Vision of radius 1 the source takes the sparse branch (the dense fill
    requires `cells < 16·len`) although `16·0 = 0` is not greater than the 9
    matrix cells. -/
theorem clear_sparse_selection_counterexample :
    clearTakesSparse (Vision.new 1) = true ∧
    ¬ (16 * (Vision.new 1).points_seen.length >
        (Vision.new 1).visibility.data.length) := by
  constructor
  · decide
  · decide

/-- C3 (amended): `clear` selects the sparse reset exactly when
    `points_seen.len · 16 ≤ matrix cells` (the source's dense branch fires on
    `cells < 16·len`); under the state invariant that every matrix cell not
    indexed by a previous `points_seen` entry already holds −1, either branch
    leaves every matrix cell at −1; and `clear`'s visibility matrix is that
    reset followed by the single centre write. -/
theorem clear_reset_correct (v : Vision) :
    (clearTakesSparse v = true ↔
      16 * v.points_seen.length ≤ v.visibility.data.length) ∧
    ((∀ i, i < v.visibility.data.length →
        (v.visibility.data.getD i (-1) = -1 ∨
          ∃ p ∈ v.points_seen, v.visibility.index (p + v.offset) = some i)) →
      ∀ i, i < (clearReset v).data.length →
        (clearReset v).data.getD i (-1) = -1) ∧
    (∀ pos vis, (v.clear pos vis).visibility =
      (clearReset v).set ⟨v.radius, v.radius⟩ vis) := by
  refine ⟨?_, ?_, fun pos vis => rfl⟩
  · simp only [clearTakesSparse, decide_eq_true_eq]
    omega
  · intro hstate i hi
    unfold clearReset at hi ⊢
    by_cases hb : v.visibility.data.length < 16 * v.points_seen.length
    · rw [if_pos hb]
      exact getD_map_const _ _
    · rw [if_neg hb] at hi ⊢
      rw [foldl_set_length] at hi
      rw [foldl_set_getD _ _ _ _ hi]
      split
      · rfl
      · rcases hstate i hi with h | h
        · exact h
        · exact absurd h (by assumption)

/-- Witness for `clear_reset_correct` on a fresh Vision of radius 1. -/
theorem clear_reset_correct_witness :
    (clearTakesSparse (Vision.new 1) = true ↔
      16 * (Vision.new 1).points_seen.length ≤
        (Vision.new 1).visibility.data.length) ∧
    (clearReset (Vision.new 1)).data.getD 0 (-1) = -1 :=
  ⟨(clear_reset_correct (Vision.new 1)).1,
   (clear_reset_correct (Vision.new 1)).2.1 (by decide) 0 (by decide)⟩

/-! ## Claim C9: independence from initial_visibility -/

theorem point_add_ne_self {p : Point} (c : Point) (h : p ≠ (⟨0, 0⟩ : Point)) :
    p + c ≠ c := by
  intro hc
  apply h
  obtain ⟨px, py⟩ := p
  obtain ⟨cx, cy⟩ := c
  simp only [Point.add_def, Point.mk.injEq] at hc ⊢
  omega

theorem Matrix.index_congr {m₁ m₂ : Matrix Int} (h : m₁.size = m₂.size)
    (p : Point) : m₁.index p = m₂.index p := by
  unfold Matrix.index Matrix.contains
  rw [h]

theorem AgreeOffCenter.get_eq {radius : Int} {m₁ m₂ : Matrix Int}
    (h : AgreeOffCenter radius m₁ m₂) (q : Point)
    (hq : q ≠ (⟨radius, radius⟩ : Point)) : m₁.get q = m₂.get q := by
  obtain ⟨hsize, hdef, hlen, hagree⟩ := h
  unfold Matrix.get
  rw [Matrix.index_congr hsize q] at *
  rcases hip : m₂.index q with _ | i
  · exact hdef
  · have hc : ¬ (m₁.index (⟨radius, radius⟩ : Point) = some i) := by
      intro hcen
      exact hq (Matrix.index_inj m₂ q (⟨radius, radius⟩ : Point) i hip
        (by rw [← Matrix.index_congr hsize]; exact hcen))
    rw [hdef]
    exact hagree i m₂.default hc

theorem AgreeOffCenter.set {radius : Int} {m₁ m₂ : Matrix Int}
    (h : AgreeOffCenter radius m₁ m₂) (q : Point) (val : Int) :
    AgreeOffCenter radius (m₁.set q val) (m₂.set q val) := by
  obtain ⟨hsize, hdef, hlen, hagree⟩ := h
  have hidx := Matrix.index_congr hsize (p := q)
  refine ⟨by rw [Matrix.set_size, Matrix.set_size, hsize],
    by rw [Matrix.set_default, Matrix.set_default, hdef],
    by rw [Matrix.set_length, Matrix.set_length, hlen], ?_⟩
  intro i d hc
  rw [Matrix.set_index] at hc
  unfold Matrix.set
  rw [hidx]
  rcases hiq : m₂.index q with _ | j
  · exact hagree i d hc
  · dsimp only
    by_cases hji : j = i
    · subst hji
      rw [List.getD_eq_getElem?_getD, List.getD_eq_getElem?_getD,
        List.getElem?_set, List.getElem?_set, hlen]
      simp
    · simp only [List.getD_eq_getElem?_getD, List.getElem?_set_ne hji]
      have := hagree i d hc
      rw [List.getD_eq_getElem?_getD, List.getD_eq_getElem?_getD] at this
      exact this

theorem agreeOffCenter_set_center (radius : Int) (R : Matrix Int)
    (iv₁ iv₂ : Int) :
    AgreeOffCenter radius (R.set ⟨radius, radius⟩ iv₁)
      (R.set ⟨radius, radius⟩ iv₂) := by
  refine ⟨by rw [Matrix.set_size, Matrix.set_size],
    by rw [Matrix.set_default, Matrix.set_default],
    by rw [Matrix.set_length, Matrix.set_length], ?_⟩
  intro i d hc
  rw [Matrix.set_index] at hc
  unfold Matrix.set
  rcases hiq : R.index (⟨radius, radius⟩ : Point) with _ | j
  · rfl
  · have hji : j ≠ i := by
      intro hji
      exact hc (by rw [hiq, hji])
    dsimp only
    simp only [List.getD_eq_getElem?_getD, List.getElem?_set_ne hji]

theorem cellStep_congr (loss : Int → Int → Int → Int) (f : Point → Int)
    (eye : Point) (radius r2 : Int) {t : Transform} (ht : t ∈ TRANSFORMS)
    (rv : Int) {depth : Int} (hd : 1 ≤ depth) (w : Int)
    (mn : Slope) (pv : Int) (vis₁ vis₂ : Matrix Int) (seen : List Point)
    (out : List SlopeRange) (hv : AgreeOffCenter radius vis₁ vis₂) :
    (cellStep loss f eye ⟨radius, radius⟩ r2 t rv depth (mn, pv, ⟨vis₁, seen, out⟩) w).1 =
      (cellStep loss f eye ⟨radius, radius⟩ r2 t rv depth (mn, pv, ⟨vis₂, seen, out⟩) w).1 ∧
    (cellStep loss f eye ⟨radius, radius⟩ r2 t rv depth (mn, pv, ⟨vis₁, seen, out⟩) w).2.1 =
      (cellStep loss f eye ⟨radius, radius⟩ r2 t rv depth (mn, pv, ⟨vis₂, seen, out⟩) w).2.1 ∧
    AgreeOffCenter radius
      (cellStep loss f eye ⟨radius, radius⟩ r2 t rv depth (mn, pv, ⟨vis₁, seen, out⟩) w).2.2.vis
      (cellStep loss f eye ⟨radius, radius⟩ r2 t rv depth (mn, pv, ⟨vis₂, seen, out⟩) w).2.2.vis ∧
    (cellStep loss f eye ⟨radius, radius⟩ r2 t rv depth (mn, pv, ⟨vis₁, seen, out⟩) w).2.2.seen =
      (cellStep loss f eye ⟨radius, radius⟩ r2 t rv depth (mn, pv, ⟨vis₂, seen, out⟩) w).2.2.seen ∧
    (cellStep loss f eye ⟨radius, radius⟩ r2 t rv depth (mn, pv, ⟨vis₁, seen, out⟩) w).2.2.out =
      (cellStep loss f eye ⟨radius, radius⟩ r2 t rv depth (mn, pv, ⟨vis₂, seen, out⟩) w).2.2.out := by
  have hne : t.mul ⟨depth, w⟩ + (⟨radius, radius⟩ : Point) ≠ (⟨radius, radius⟩ : Point) :=
    point_add_ne_self _ (transform_mul_ne_zero ht w hd)
  have hold : vis₁.get (t.mul ⟨depth, w⟩ + ⟨radius, radius⟩) =
      vis₂.get (t.mul ⟨depth, w⟩ + ⟨radius, radius⟩) := hv.get_eq _ hne
  simp only [cellStep]
  rw [hold]
  split_ifs <;>
    first
      | exact ⟨rfl, rfl, hv.set _ _, rfl, rfl⟩
      | exact ⟨rfl, rfl, hv, rfl, rfl⟩

theorem processRange_congr (loss : Int → Int → Int → Int) (f : Point → Int)
    (eye : Point) (radius r2 : Int) {depth : Int} (hd : 1 ≤ depth)
    (r : SlopeRange) (ht : r.transform ∈ TRANSFORMS)
    (vis₁ vis₂ : Matrix Int) (seen : List Point) (out : List SlopeRange)
    (hv : AgreeOffCenter radius vis₁ vis₂) :
    AgreeOffCenter radius
      (processRange loss f eye ⟨radius, radius⟩ r2 depth ⟨vis₁, seen, out⟩ r).vis
      (processRange loss f eye ⟨radius, radius⟩ r2 depth ⟨vis₂, seen, out⟩ r).vis ∧
    (processRange loss f eye ⟨radius, radius⟩ r2 depth ⟨vis₁, seen, out⟩ r).seen =
      (processRange loss f eye ⟨radius, radius⟩ r2 depth ⟨vis₂, seen, out⟩ r).seen ∧
    (processRange loss f eye ⟨radius, radius⟩ r2 depth ⟨vis₁, seen, out⟩ r).out =
      (processRange loss f eye ⟨radius, radius⟩ r2 depth ⟨vis₂, seen, out⟩ r).out := by
  have hstep : ∀ (a₁ a₂ : Slope × Int × RowState) (b : Int), True →
      (a₁.1 = a₂.1 ∧ a₁.2.1 = a₂.2.1 ∧ AgreeOffCenter radius a₁.2.2.vis a₂.2.2.vis ∧
        a₁.2.2.seen = a₂.2.2.seen ∧ a₁.2.2.out = a₂.2.2.out) →
      ((cellStep loss f eye ⟨radius, radius⟩ r2 r.transform r.visibility depth a₁ b).1 =
          (cellStep loss f eye ⟨radius, radius⟩ r2 r.transform r.visibility depth a₂ b).1 ∧
        (cellStep loss f eye ⟨radius, radius⟩ r2 r.transform r.visibility depth a₁ b).2.1 =
          (cellStep loss f eye ⟨radius, radius⟩ r2 r.transform r.visibility depth a₂ b).2.1 ∧
        AgreeOffCenter radius
          (cellStep loss f eye ⟨radius, radius⟩ r2 r.transform r.visibility depth a₁ b).2.2.vis
          (cellStep loss f eye ⟨radius, radius⟩ r2 r.transform r.visibility depth a₂ b).2.2.vis ∧
        (cellStep loss f eye ⟨radius, radius⟩ r2 r.transform r.visibility depth a₁ b).2.2.seen =
          (cellStep loss f eye ⟨radius, radius⟩ r2 r.transform r.visibility depth a₂ b).2.2.seen ∧
        (cellStep loss f eye ⟨radius, radius⟩ r2 r.transform r.visibility depth a₁ b).2.2.out =
          (cellStep loss f eye ⟨radius, radius⟩ r2 r.transform r.visibility depth a₂ b).2.2.out) := by
    intro a₁ a₂ b _ hR
    obtain ⟨mn₁, pv₁, rs₁⟩ := a₁
    obtain ⟨v₁, s₁, o₁⟩ := rs₁
    obtain ⟨mn₂, pv₂, rs₂⟩ := a₂
    obtain ⟨v₂, s₂, o₂⟩ := rs₂
    obtain ⟨h1, h2, h3, h4, h5⟩ := hR
    dsimp only at h1 h2 h3 h4 h5
    subst h1
    subst h2
    subst h4
    subst h5
    exact cellStep_congr loss f eye radius r2 ht r.visibility hd b mn₁ pv₁ v₁ v₂ s₁ o₁ h3
  have hfold := foldl_rel
    (fun a₁ a₂ : Slope × Int × RowState =>
      a₁.1 = a₂.1 ∧ a₁.2.1 = a₂.2.1 ∧ AgreeOffCenter radius a₁.2.2.vis a₂.2.2.vis ∧
        a₁.2.2.seen = a₂.2.2.seen ∧ a₁.2.2.out = a₂.2.2.out)
    (fun _ => True)
    (cellStep loss f eye ⟨radius, radius⟩ r2 r.transform r.visibility depth)
    (intRange (div_floor (2 * r.min.num * depth + r.min.den) (2 * r.min.den))
      (div_ceil (2 * r.max.num * depth - r.max.den) (2 * r.max.den)))
    (fun _ _ => trivial) hstep
    (r.min, -1, (⟨vis₁, seen, out⟩ : RowState))
    (r.min, -1, (⟨vis₂, seen, out⟩ : RowState))
    ⟨rfl, rfl, hv, rfl, rfl⟩
  unfold processRange
  dsimp only
  obtain ⟨e1, e2, hva, e4, e5⟩ := hfold
  refine ⟨?_, ?_, ?_⟩ <;> rw [e2] <;> split_ifs <;> try dsimp only
  · exact hva
  · exact hva
  · exact e4
  · exact e4
  · rw [e1, e5]
  · exact e5

theorem cellStep_out_transforms (loss : Int → Int → Int → Int) (f : Point → Int)
    (eye center : Point) (r2 : Int) {t : Transform} (ht : t ∈ TRANSFORMS)
    (rv depth : Int) (acc : Slope × Int × RowState) (w : Int)
    (h : ∀ s ∈ acc.2.2.out, s.transform ∈ TRANSFORMS) :
    ∀ s ∈ (cellStep loss f eye center r2 t rv depth acc w).2.2.out,
      s.transform ∈ TRANSFORMS := by
  obtain ⟨mn, pv, rs⟩ := acc
  obtain ⟨vis, seen, out⟩ := rs
  dsimp only at h
  simp only [cellStep]
  split_ifs <;> (try dsimp only) <;>
    first
      | exact h
      | exact pushRange_transforms h ht

theorem processRange_out_transforms (loss : Int → Int → Int → Int)
    (f : Point → Int) (eye center : Point) (r2 depth : Int)
    (rs : RowState) (r : SlopeRange) (hr : r.transform ∈ TRANSFORMS)
    (h : ∀ s ∈ rs.out, s.transform ∈ TRANSFORMS) :
    ∀ s ∈ (processRange loss f eye center r2 depth rs r).out,
      s.transform ∈ TRANSFORMS := by
  have hfold := foldl_inv
    (fun acc : Slope × Int × RowState => ∀ s ∈ acc.2.2.out, s.transform ∈ TRANSFORMS)
    (fun _ => True)
    (cellStep loss f eye center r2 r.transform r.visibility depth)
    (intRange (div_floor (2 * r.min.num * depth + r.min.den) (2 * r.min.den))
      (div_ceil (2 * r.max.num * depth - r.max.den) (2 * r.max.den)))
    (fun _ _ => trivial)
    (fun acc b _ hP =>
      cellStep_out_transforms loss f eye center r2 hr r.visibility depth acc b hP)
    (r.min, -1, rs) h
  unfold processRange
  dsimp only
  split_ifs
  · exact pushRange_transforms hfold hr
  · exact hfold

theorem executeFuel_frame (loss : Int → Int → Int → Int) (f : Point → Int)
    (eye : Point) (radius limit : Int) :
    ∀ (fuel : Nat) (st : Vision),
    (executeFuel loss f eye radius limit fuel st).offset = st.offset ∧
    (executeFuel loss f eye radius limit fuel st).radius = st.radius := by
  intro fuel
  induction fuel with
  | zero => exact fun st => ⟨rfl, rfl⟩
  | succ n ih =>
    intro st
    rw [executeFuel]
    split
    · exact ih _
    · exact ⟨rfl, rfl⟩

theorem executeFuel_congr (loss : Int → Int → Int → Int) (f : Point → Int)
    (eye : Point) (radius limit : Int) :
    ∀ (fuel : Nat) (st₁ st₂ : Vision),
    st₁.prev = st₂.prev → st₁.next = st₂.next →
    st₁.points_seen = st₂.points_seen →
    AgreeOffCenter radius st₁.visibility st₂.visibility →
    (∀ r ∈ st₁.prev.items, r.transform ∈ TRANSFORMS) →
    (∀ r ∈ st₁.next.items, r.transform ∈ TRANSFORMS) →
    1 ≤ st₁.prev.depth → 1 ≤ st₁.next.depth →
    (executeFuel loss f eye radius limit fuel st₁).points_seen =
      (executeFuel loss f eye radius limit fuel st₂).points_seen ∧
    AgreeOffCenter radius
      (executeFuel loss f eye radius limit fuel st₁).visibility
      (executeFuel loss f eye radius limit fuel st₂).visibility := by
  intro fuel
  induction fuel with
  | zero =>
    intro st₁ st₂ hprev hnext hseen hvis htr htr2 hd1 hd2
    exact ⟨hseen, hvis⟩
  | succ n ih =>
    intro st₁ st₂ hprev hnext hseen hvis htr htr2 hd1 hd2
    rw [executeFuel, executeFuel]
    rw [hprev] at htr hd1
    rw [hnext] at htr2 hd2
    rw [hprev, hnext, hseen]
    by_cases hc : st₂.prev.depth ≤ limit ∧ st₂.prev.items ≠ []
    · rw [if_pos hc, if_pos hc]
      dsimp only
      have hstep : ∀ (a b : RowState) (r : SlopeRange), r.transform ∈ TRANSFORMS →
          (AgreeOffCenter radius a.vis b.vis ∧ a.seen = b.seen ∧ a.out = b.out) →
          (AgreeOffCenter radius
              (processRange loss f eye ⟨radius, radius⟩
                (radius * radius + radius) st₂.prev.depth a r).vis
              (processRange loss f eye ⟨radius, radius⟩
                (radius * radius + radius) st₂.prev.depth b r).vis ∧
            (processRange loss f eye ⟨radius, radius⟩
                (radius * radius + radius) st₂.prev.depth a r).seen =
              (processRange loss f eye ⟨radius, radius⟩
                (radius * radius + radius) st₂.prev.depth b r).seen ∧
            (processRange loss f eye ⟨radius, radius⟩
                (radius * radius + radius) st₂.prev.depth a r).out =
              (processRange loss f eye ⟨radius, radius⟩
                (radius * radius + radius) st₂.prev.depth b r).out) := by
        intro a b r hrt hR
        obtain ⟨va, sa, oa⟩ := a
        obtain ⟨vb, sb, ob⟩ := b
        obtain ⟨h1, h2, h3⟩ := hR
        dsimp only at h1 h2 h3
        subst h2
        subst h3
        exact processRange_congr loss f eye radius (radius * radius + radius)
          hd1 r hrt va vb sa oa h1
      have hrow := foldl_rel
        (fun a b : RowState =>
          AgreeOffCenter radius a.vis b.vis ∧ a.seen = b.seen ∧ a.out = b.out)
        (fun r : SlopeRange => r.transform ∈ TRANSFORMS)
        (processRange loss f eye ⟨radius, radius⟩
          (radius * radius + radius) st₂.prev.depth)
        st₂.prev.items htr hstep
        ⟨st₁.visibility, st₂.points_seen, st₂.next.items⟩
        ⟨st₂.visibility, st₂.points_seen, st₂.next.items⟩
        ⟨hvis, rfl, rfl⟩
      obtain ⟨hv2, hs2, ho2⟩ := hrow
      have hout := foldl_inv
        (fun rs : RowState => ∀ s ∈ rs.out, s.transform ∈ TRANSFORMS)
        (fun r : SlopeRange => r.transform ∈ TRANSFORMS)
        (processRange loss f eye ⟨radius, radius⟩
          (radius * radius + radius) st₂.prev.depth)
        st₂.prev.items htr
        (fun rs r hq hP =>
          processRange_out_transforms loss f eye ⟨radius, radius⟩
            (radius * radius + radius) st₂.prev.depth rs r hq hP)
        ⟨st₁.visibility, st₂.points_seen, st₂.next.items⟩ htr2
      apply ih
      · show SlopeRanges.mk st₂.next.depth _ = SlopeRanges.mk st₂.next.depth _
        rw [ho2]
      · rfl
      · exact hs2
      · exact hv2
      · exact hout
      · intro r hr
        exact absurd hr (List.not_mem_nil r)
      · exact hd2
      · show 1 ≤ st₂.prev.depth + 2
        omega
    · rw [if_neg hc, if_neg hc]
      exact ⟨hseen, hvis⟩

theorem seedQuadrant_transform {dir : Point} {tgt : Option Point} {t : Transform}
    {r : SlopeRange} (h : seedQuadrant dir tgt t = some r) : r.transform = t := by
  unfold seedQuadrant at h
  dsimp only at h
  rcases hb : (if dir = (⟨0, 0⟩ : Point) then
      some ((⟨-1, 1⟩ : Slope), (⟨1, 1⟩ : Slope)) else dirClip t dir) with _ | p
  · rw [hb] at h
    exact absurd h (by simp)
  · rw [hb] at h
    obtain ⟨mn, mx⟩ := p
    dsimp only at h
    rcases ha : applyTarget t tgt mn mx with _ | q
    · rw [ha] at h
      exact absurd h (by simp)
    · rw [ha] at h
      obtain ⟨mn2, mx2⟩ := q
      dsimp only at h
      split_ifs at h
      injection h with h2
      rw [← h2]

theorem seeded_transforms (dir : Point) (tgt : Option Point) :
    ∀ r ∈ TRANSFORMS.filterMap (seedQuadrant dir tgt), r.transform ∈ TRANSFORMS := by
  intro r hr
  obtain ⟨t, ht, hs⟩ := List.mem_filterMap.mp hr
  rw [seedQuadrant_transform hs]
  exact ht

/-- C9: `seed_ranges` always seeds the quadrant ranges with the constant
    `INITIAL_VISIBILITY = 100`, not `args.initial_visibility`, and the sweep
    never reads or writes the eye's cell, so two computes whose arguments
    differ only in `initial_visibility` produce the same visibility at every
    point other than the eye.  (The witness exhibits the second half of the
    claim concretely: with a fully transparent map and initial visibility
    0 < 100, a non-eye cell retains residual visibility 100, strictly greater
    than the eye's.) -/
theorem initial_visibility_independence (loss : Int → Int → Int → Int)
    (radius : Int) (eye dir : Point) (f : Point → Int) (iv₁ iv₂ : Int)
    (p : Point) (hp : p ≠ eye) :
    ((Vision.new radius).compute loss ⟨eye, dir, f, iv₁⟩).get_visibility_at p =
    ((Vision.new radius).compute loss ⟨eye, dir, f, iv₂⟩).get_visibility_at p := by
  have hmk : ∀ iv : Int, ((Vision.new radius).clear eye iv).seed_ranges dir none =
      { radius := radius
        offset := (⟨radius, radius⟩ : Point) - eye
        points_seen := [eye]
        visibility := (clearReset (Vision.new radius)).set ⟨radius, radius⟩ iv
        prev := ⟨1, TRANSFORMS.filterMap (seedQuadrant dir none)⟩
        next := ⟨2, []⟩ } := fun iv => rfl
  show (((((Vision.new radius).clear eye iv₁).seed_ranges dir none).execute
      loss eye radius f)).get_visibility_at p =
    (((((Vision.new radius).clear eye iv₂).seed_ranges dir none).execute
      loss eye radius f)).get_visibility_at p
  rw [hmk iv₁, hmk iv₂]
  unfold Vision.execute Vision.get_visibility_at
  dsimp only
  have hcongr := executeFuel_congr loss f eye radius radius
    ((radius + 1 - 1).toNat)
    { radius := radius
      offset := (⟨radius, radius⟩ : Point) - eye
      points_seen := [eye]
      visibility := (clearReset (Vision.new radius)).set ⟨radius, radius⟩ iv₁
      prev := ⟨1, TRANSFORMS.filterMap (seedQuadrant dir none)⟩
      next := ⟨2, []⟩ }
    { radius := radius
      offset := (⟨radius, radius⟩ : Point) - eye
      points_seen := [eye]
      visibility := (clearReset (Vision.new radius)).set ⟨radius, radius⟩ iv₂
      prev := ⟨1, TRANSFORMS.filterMap (seedQuadrant dir none)⟩
      next := ⟨2, []⟩ }
    rfl rfl rfl
    (agreeOffCenter_set_center radius (clearReset (Vision.new radius)) iv₁ iv₂)
    (seeded_transforms dir none)
    (fun r hr => absurd hr (List.not_mem_nil r))
    (le_refl 1) one_le_two
  have hoff₁ := (executeFuel_frame loss f eye radius radius
    ((radius + 1 - 1).toNat)
    { radius := radius
      offset := (⟨radius, radius⟩ : Point) - eye
      points_seen := [eye]
      visibility := (clearReset (Vision.new radius)).set ⟨radius, radius⟩ iv₁
      prev := ⟨1, TRANSFORMS.filterMap (seedQuadrant dir none)⟩
      next := ⟨2, []⟩ }).1
  have hoff₂ := (executeFuel_frame loss f eye radius radius
    ((radius + 1 - 1).toNat)
    { radius := radius
      offset := (⟨radius, radius⟩ : Point) - eye
      points_seen := [eye]
      visibility := (clearReset (Vision.new radius)).set ⟨radius, radius⟩ iv₂
      prev := ⟨1, TRANSFORMS.filterMap (seedQuadrant dir none)⟩
      next := ⟨2, []⟩ }).1
  rw [hoff₁, hoff₂]
  dsimp only
  apply hcongr.2.get_eq
  intro hc
  apply hp
  obtain ⟨px, py⟩ := p
  obtain ⟨ex, ey⟩ := eye
  simp only [Point.add_def, Point.sub_def, Point.mk.injEq] at hc ⊢
  omega

set_option maxRecDepth 100000 in
/-- Witness for `initial_visibility_independence` at radius 1, a transparent
    map, initial visibilities 0 and 100, and the point (1,0); the extra
    conjuncts exhibit the claim's consequence that a non-eye cell can hold
    residual visibility (100) strictly greater than the eye's (0). -/
theorem initial_visibility_independence_witness :
    ((Vision.new 1).compute (fun _ _ o => o)
        ⟨⟨0, 0⟩, ⟨0, 0⟩, fun _ => 0, 0⟩).get_visibility_at ⟨1, 0⟩ =
      ((Vision.new 1).compute (fun _ _ o => o)
        ⟨⟨0, 0⟩, ⟨0, 0⟩, fun _ => 0, 100⟩).get_visibility_at ⟨1, 0⟩ ∧
    ((Vision.new 1).compute (fun _ _ o => o)
        ⟨⟨0, 0⟩, ⟨0, 0⟩, fun _ => 0, 0⟩).get_visibility_at ⟨1, 0⟩ = 100 ∧
    ((Vision.new 1).compute (fun _ _ o => o)
        ⟨⟨0, 0⟩, ⟨0, 0⟩, fun _ => 0, 0⟩).get_visibility_at ⟨0, 0⟩ = 0 :=
  ⟨initial_visibility_independence (fun _ _ o => o) 1 ⟨0, 0⟩ ⟨0, 0⟩
      (fun _ => 0) 0 100 ⟨1, 0⟩ (by decide),
   by decide, by decide⟩

/-! ## Claim C5: points_seen matches nonnegative visibility -/

theorem matrix_new_get (s : Point) (q : Point) :
    (Matrix.new s (-1 : Int)).get q = -1 := by
  unfold Matrix.get
  rcases h : (Matrix.new s (-1 : Int)).index q with _ | i
  · rfl
  · show (List.replicate (s.x * s.y).toNat (-1 : Int)).getD i (-1) = -1
    rw [List.getD_eq_getElem?_getD, List.getElem?_replicate]
    split <;> rfl

theorem matrixDims_set (radius : Int) (m : Matrix Int) (p : Point) (val : Int)
    (h : MatrixDims radius m) : MatrixDims radius (m.set p val) := by
  obtain ⟨h1, h2, h3⟩ := h
  exact ⟨by rw [Matrix.set_size, h1], by rw [Matrix.set_default, h2],
    by rw [Matrix.set_length, h3]⟩

theorem index_some_of_bounds {radius : Int} {m : Matrix Int}
    (hd : MatrixDims radius m) {q : Point}
    (h1 : 0 ≤ q.x) (h2 : q.x ≤ 2 * radius) (h3 : 0 ≤ q.y) (h4 : q.y ≤ 2 * radius) :
    ∃ i, m.index q = some i ∧ i < m.data.length := by
  obtain ⟨hsize, hdef, hlen⟩ := hd
  have hcont : m.contains q = true := by
    unfold Matrix.contains
    rw [hsize]
    simp only [decide_eq_true_eq]
    exact ⟨h1, by omega, h3, by omega⟩
  have hxpos : 0 ≤ 2 * radius := by omega
  have hlt : q.x + q.y * (2 * radius + 1) < (2 * radius + 1) * (2 * radius + 1) := by
    nlinarith
  have hnn : 0 ≤ q.x + q.y * (2 * radius + 1) := by nlinarith
  refine ⟨(q.x + q.y * (2 * radius + 1)).toNat, ?_, ?_⟩
  · unfold Matrix.index
    rw [hsize] at *
    simp only [hcont, if_true]
  · rw [hlen]
    have hpos : (0 : Int) < (2 * radius + 1) * (2 * radius + 1) := by nlinarith
    exact (Int.toNat_lt_toNat hpos).mpr hlt

theorem transform_mul_l2 {t : Transform} (ht : t ∈ TRANSFORMS) (d w : Int) :
    (t.mul ⟨d, w⟩).len_l2_squared = d * d + w * w := by
  rw [mem_TRANSFORMS_iff] at ht
  rcases ht with h | h | h | h <;> subst h <;>
    simp only [Transform.mul, Point.len_l2_squared] <;> ring

theorem head?_append_left {l : List Point} (x : Point) (h : l ≠ []) :
    (l ++ [x]).head? = l.head? := by
  cases l with
  | nil => exact absurd rfl h
  | cons a l => rfl

theorem visInv_set (radius : Int) (eye : Point) (iv : Int) (hr : 0 ≤ radius)
    {vis : Matrix Int} {seen : List Point}
    (h : VisInv radius eye iv vis seen) {t : Transform} (ht : t ∈ TRANSFORMS)
    {depth w : Int} (hd : 1 ≤ depth)
    (hnear : depth * depth + w * w ≤ radius * radius + radius)
    (val : Int) (hv : 0 ≤ val) :
    VisInv radius eye iv
      (vis.set (t.mul ⟨depth, w⟩ + ⟨radius, radius⟩)
        (max (vis.get (t.mul ⟨depth, w⟩ + ⟨radius, radius⟩)) val))
      (if vis.get (t.mul ⟨depth, w⟩ + ⟨radius, radius⟩) < 0 then
        seen ++ [t.mul ⟨depth, w⟩ + eye] else seen) := by
  obtain ⟨hdims, hiff, hcen, hhead, hl2⟩ := h
  have hbnd := transform_point_in_bounds ht hr hnear
  have hq1 : 0 ≤ (t.mul ⟨depth, w⟩ + (⟨radius, radius⟩ : Point)).x := by
    simp only [Point.add_def]
    omega
  have hq2 : (t.mul ⟨depth, w⟩ + (⟨radius, radius⟩ : Point)).x ≤ 2 * radius := by
    simp only [Point.add_def]
    omega
  have hq3 : 0 ≤ (t.mul ⟨depth, w⟩ + (⟨radius, radius⟩ : Point)).y := by
    simp only [Point.add_def]
    omega
  have hq4 : (t.mul ⟨depth, w⟩ + (⟨radius, radius⟩ : Point)).y ≤ 2 * radius := by
    simp only [Point.add_def]
    omega
  obtain ⟨i, hqi, hilt⟩ := index_some_of_bounds hdims hq1 hq2 hq3 hq4
  have hget := Matrix.get_set_of_index vis hqi hilt
    (max (vis.get (t.mul ⟨depth, w⟩ + ⟨radius, radius⟩)) val)
  have hpq : ∀ p : Point, p + ((⟨radius, radius⟩ : Point) - eye) =
      t.mul ⟨depth, w⟩ + (⟨radius, radius⟩ : Point) ↔ p = t.mul ⟨depth, w⟩ + eye := by
    intro p
    obtain ⟨px, py⟩ := p
    obtain ⟨ex, ey⟩ := eye
    rcases hm : t.mul ⟨depth, w⟩ with ⟨mx, my⟩
    simp only [Point.add_def, Point.sub_def, Point.mk.injEq]
    omega
  have hcq : (⟨radius, radius⟩ : Point) ≠ t.mul ⟨depth, w⟩ + (⟨radius, radius⟩ : Point) := by
    intro hc
    exact point_add_ne_self _ (transform_mul_ne_zero ht w hd) hc.symm
  have hwe : t.mul ⟨depth, w⟩ + eye - eye = t.mul ⟨depth, w⟩ := by
    obtain ⟨ex, ey⟩ := eye
    rcases hm : t.mul ⟨depth, w⟩ with ⟨mx, my⟩
    simp only [Point.add_def, Point.sub_def, Point.mk.injEq]
    omega
  have hne : seen ≠ [] := by
    intro hc
    rw [hc] at hhead
    exact absurd hhead (by simp)
  refine ⟨matrixDims_set radius vis _ _ hdims, ?_, ?_, ?_, ?_⟩
  · intro p
    rw [hget]
    by_cases hp : p = t.mul ⟨depth, w⟩ + eye
    · rw [if_pos ((hpq p).mpr hp)]
      constructor
      · intro _
        split
        · rw [hp]
          exact List.mem_append_right _ (List.mem_singleton.mpr rfl)
        · rw [hp]
          rw [← hiff]
          rw [(hpq (t.mul ⟨depth, w⟩ + eye)).mpr rfl]
          omega
      · intro _
        exact le_max_of_le_right hv
    · rw [if_neg (fun hc => hp ((hpq p).mp hc))]
      rw [hiff]
      split
      · constructor
        · exact fun hm => List.mem_append_left _ hm
        · intro hm
          rcases List.mem_append.mp hm with hm | hm
          · exact hm
          · exact absurd (List.mem_singleton.mp hm) hp
      · exact Iff.rfl
  · rw [hget, if_neg hcq]
    exact hcen
  · split
    · rw [head?_append_left _ hne]
      exact hhead
    · exact hhead
  · intro p
    rw [hget]
    by_cases hp : p = t.mul ⟨depth, w⟩ + eye
    · intro _
      rw [hp, hwe, transform_mul_l2 ht]
      exact hnear
    · rw [if_neg (fun hc => hp ((hpq p).mp hc))]
      exact hl2 p

theorem nextVisibility_not_nearby (loss : Int → Int → Int → Int)
    (f : Point → Int) (eye : Point) (r2 : Int) (t : Transform) (rv depth w : Int)
    (h : ¬ (depth * depth + w * w ≤ r2)) :
    nextVisibility loss f eye r2 t rv depth w = -1 := by
  simp only [nextVisibility]
  rw [if_pos h]

theorem cellStep_visInv (loss : Int → Int → Int → Int) (f : Point → Int)
    (eye : Point) (radius : Int) (hr : 0 ≤ radius) {t : Transform}
    (ht : t ∈ TRANSFORMS) (rv : Int) {depth : Int} (hd : 1 ≤ depth)
    (acc : Slope × Int × RowState) (w : Int) (iv : Int)
    (h : VisInv radius eye iv acc.2.2.vis acc.2.2.seen) :
    VisInv radius eye iv
      (cellStep loss f eye ⟨radius, radius⟩ (radius * radius + radius)
        t rv depth acc w).2.2.vis
      (cellStep loss f eye ⟨radius, radius⟩ (radius * radius + radius)
        t rv depth acc w).2.2.seen := by
  obtain ⟨mn, pv, rs⟩ := acc
  obtain ⟨vis, seen, out⟩ := rs
  dsimp only at h
  by_cases h1 : 0 ≤ nextVisibility loss f eye (radius * radius + radius) t rv depth w
  · have hnear : depth * depth + w * w ≤ radius * radius + radius := by
      by_contra hc
      rw [nextVisibility_not_nearby loss f eye _ t rv depth w hc] at h1
      omega
    have hbase := visInv_set radius eye iv hr h ht hd hnear _ h1
    simp only [cellStep]
    rw [if_pos h1]
    by_cases hold : vis.get (t.mul ⟨depth, w⟩ + ⟨radius, radius⟩) < 0
    · rw [if_pos hold] at hbase
      split_ifs <;> exact hbase
    · rw [if_neg hold] at hbase
      split_ifs <;> exact hbase
  · simp only [cellStep]
    rw [if_neg h1]
    split_ifs <;> exact h

theorem processRange_visInv (loss : Int → Int → Int → Int) (f : Point → Int)
    (eye : Point) (radius : Int) (hr : 0 ≤ radius) {depth : Int} (hd : 1 ≤ depth)
    (rs : RowState) (r : SlopeRange) (htr : r.transform ∈ TRANSFORMS) (iv : Int)
    (h : VisInv radius eye iv rs.vis rs.seen) :
    VisInv radius eye iv
      (processRange loss f eye ⟨radius, radius⟩ (radius * radius + radius)
        depth rs r).vis
      (processRange loss f eye ⟨radius, radius⟩ (radius * radius + radius)
        depth rs r).seen := by
  have hfold := foldl_inv
    (fun acc : Slope × Int × RowState => VisInv radius eye iv acc.2.2.vis acc.2.2.seen)
    (fun _ => True)
    (cellStep loss f eye ⟨radius, radius⟩ (radius * radius + radius)
      r.transform r.visibility depth)
    (intRange (div_floor (2 * r.min.num * depth + r.min.den) (2 * r.min.den))
      (div_ceil (2 * r.max.num * depth - r.max.den) (2 * r.max.den)))
    (fun _ _ => trivial)
    (fun acc b _ hP =>
      cellStep_visInv loss f eye radius hr htr r.visibility hd acc b iv hP)
    (r.min, -1, rs) h
  unfold processRange
  dsimp only
  split_ifs
  · exact hfold
  · exact hfold

theorem executeFuel_visInv (loss : Int → Int → Int → Int) (f : Point → Int)
    (eye : Point) (radius limit iv : Int) (hr : 0 ≤ radius) :
    ∀ (fuel : Nat) (st : Vision),
    VisInv radius eye iv st.visibility st.points_seen →
    (∀ r ∈ st.prev.items, r.transform ∈ TRANSFORMS) →
    (∀ r ∈ st.next.items, r.transform ∈ TRANSFORMS) →
    1 ≤ st.prev.depth → 1 ≤ st.next.depth →
    VisInv radius eye iv
      (executeFuel loss f eye radius limit fuel st).visibility
      (executeFuel loss f eye radius limit fuel st).points_seen := by
  intro fuel
  induction fuel with
  | zero =>
    intro st h _ _ _ _
    exact h
  | succ n ih =>
    intro st h htr htr2 hd1 hd2
    rw [executeFuel]
    split_ifs with hc
    · dsimp only
      have hrow := foldl_inv
        (fun rs : RowState => VisInv radius eye iv rs.vis rs.seen)
        (fun r : SlopeRange => r.transform ∈ TRANSFORMS)
        (processRange loss f eye ⟨radius, radius⟩ (radius * radius + radius)
          st.prev.depth)
        st.prev.items htr
        (fun rs r hq hP =>
          processRange_visInv loss f eye radius hr hd1 rs r hq iv hP)
        ⟨st.visibility, st.points_seen, st.next.items⟩ h
      have hout := foldl_inv
        (fun rs : RowState => ∀ s ∈ rs.out, s.transform ∈ TRANSFORMS)
        (fun r : SlopeRange => r.transform ∈ TRANSFORMS)
        (processRange loss f eye ⟨radius, radius⟩ (radius * radius + radius)
          st.prev.depth)
        st.prev.items htr
        (fun rs r hq hP =>
          processRange_out_transforms loss f eye ⟨radius, radius⟩
            (radius * radius + radius) st.prev.depth rs r hq hP)
        ⟨st.visibility, st.points_seen, st.next.items⟩ htr2
      apply ih
      · exact hrow
      · exact hout
      · intro r hr'
        exact absurd hr' (List.not_mem_nil r)
      · exact hd2
      · show 1 ≤ st.prev.depth + 2
        omega
    · exact h

theorem clearReset_new (radius : Int) :
    clearReset (Vision.new radius) =
      Matrix.new ⟨2 * radius + 1, 2 * radius + 1⟩ (-1) := by
  unfold clearReset
  rw [if_neg]
  · rfl
  · show ¬ ((Vision.new radius).visibility.data.length <
      16 * ([] : List Point).length)
    simp

theorem matrixDims_new (radius : Int) :
    MatrixDims radius (Matrix.new ⟨2 * radius + 1, 2 * radius + 1⟩ (-1)) := by
  refine ⟨rfl, rfl, ?_⟩
  show (List.replicate ((2 * radius + 1) * (2 * radius + 1)).toNat (-1 : Int)).length = _
  rw [List.length_replicate]

theorem visInv_after_clear (radius : Int) (eye : Point) (iv : Int)
    (hr : 0 ≤ radius) (hiv : 0 ≤ iv) :
    VisInv radius eye iv
      ((Matrix.new ⟨2 * radius + 1, 2 * radius + 1⟩ (-1)).set
        ⟨radius, radius⟩ iv) [eye] := by
  have hdims := matrixDims_new radius
  obtain ⟨i, hqi, hilt⟩ := index_some_of_bounds hdims
    (q := (⟨radius, radius⟩ : Point)) hr
    (by show radius ≤ 2 * radius; omega) hr
    (by show radius ≤ 2 * radius; omega)
  have hget := Matrix.get_set_of_index _ hqi hilt iv
  have hpq : ∀ p : Point, p + ((⟨radius, radius⟩ : Point) - eye) =
      (⟨radius, radius⟩ : Point) ↔ p = eye := by
    intro p
    obtain ⟨px, py⟩ := p
    obtain ⟨ex, ey⟩ := eye
    simp only [Point.add_def, Point.sub_def, Point.mk.injEq]
    omega
  refine ⟨matrixDims_set radius _ _ _ hdims, ?_, ?_, rfl, ?_⟩
  · intro p
    rw [hget]
    by_cases hp : p = eye
    · rw [if_pos ((hpq p).mpr hp)]
      simp [hp, hiv]
    · rw [if_neg (fun hc => hp ((hpq p).mp hc)), matrix_new_get]
      simp only [List.mem_singleton]
      constructor
      · intro hc
        omega
      · intro hc
        exact absurd hc hp
  · rw [hget, if_pos rfl]
  · intro p
    rw [hget]
    by_cases hp : p = eye
    · intro _
      rw [hp]
      have : eye - eye = (⟨0, 0⟩ : Point) := by
        obtain ⟨ex, ey⟩ := eye
        simp only [Point.sub_def, Point.mk.injEq]
        omega
      rw [this]
      show (0 : Int) * 0 + 0 * 0 ≤ _
      have := radius_sq_add_nonneg radius
      omega
    · rw [if_neg (fun hc => hp ((hpq p).mp hc)), matrix_new_get]
      intro hc
      omega

set_option maxRecDepth 100000 in
/-- C5 counterexample: the claim quantifies over all args, but with
    `initial_visibility = -1` the eye is recorded in `points_seen` while its
    stored visibility is negative, so the claimed equivalence fails at the
    eye. -/
theorem points_seen_iff_counterexample :
    (⟨0, 0⟩ : Point) ∈ ((Vision.new 1).compute (fun _ _ o => o)
      ⟨⟨0, 0⟩, ⟨0, 0⟩, fun _ => 0, -1⟩).get_points_seen ∧
    ¬ (0 ≤ ((Vision.new 1).compute (fun _ _ o => o)
      ⟨⟨0, 0⟩, ⟨0, 0⟩, fun _ => 0, -1⟩).get_visibility_at ⟨0, 0⟩) := by
  constructor
  · decide
  · decide

/-- C5 (amended): after `compute(args)` on a fresh Vision, provided
    `args.initial_visibility ≥ 0` (and `radius ≥ 0`, which `Vision::new`
    asserts), a point has nonnegative visibility exactly when it is an
    element of `get_points_seen()`; moreover — for every args — the first
    point seen is the eye and the eye's visibility equals
    `args.initial_visibility`. -/
theorem compute_seen_iff (loss : Int → Int → Int → Int) (radius : Int)
    (eye dir : Point) (f : Point → Int) (iv : Int) (p : Point)
    (hr : 0 ≤ radius) (hiv : 0 ≤ iv) :
    (0 ≤ ((Vision.new radius).compute loss ⟨eye, dir, f, iv⟩).get_visibility_at p ↔
      p ∈ ((Vision.new radius).compute loss ⟨eye, dir, f, iv⟩).get_points_seen) ∧
    ((Vision.new radius).compute loss
      ⟨eye, dir, f, iv⟩).get_points_seen.head? = some eye ∧
    ((Vision.new radius).compute loss
      ⟨eye, dir, f, iv⟩).get_visibility_at eye = iv := by
  have hmk : ((Vision.new radius).clear eye iv).seed_ranges dir none =
      { radius := radius
        offset := (⟨radius, radius⟩ : Point) - eye
        points_seen := [eye]
        visibility := (clearReset (Vision.new radius)).set ⟨radius, radius⟩ iv
        prev := ⟨1, TRANSFORMS.filterMap (seedQuadrant dir none)⟩
        next := ⟨2, []⟩ } := rfl
  show (0 ≤ (((((Vision.new radius).clear eye iv).seed_ranges dir none).execute
      loss eye radius f)).get_visibility_at p ↔
      p ∈ (((((Vision.new radius).clear eye iv).seed_ranges dir none).execute
        loss eye radius f)).get_points_seen) ∧
    (((((Vision.new radius).clear eye iv).seed_ranges dir none).execute
      loss eye radius f)).get_points_seen.head? = some eye ∧
    (((((Vision.new radius).clear eye iv).seed_ranges dir none).execute
      loss eye radius f)).get_visibility_at eye = iv
  rw [hmk]
  unfold Vision.execute Vision.get_visibility_at Vision.get_points_seen
  dsimp only
  have hinv := executeFuel_visInv loss f eye radius radius iv hr
    ((radius + 1 - 1).toNat)
    { radius := radius
      offset := (⟨radius, radius⟩ : Point) - eye
      points_seen := [eye]
      visibility := (clearReset (Vision.new radius)).set ⟨radius, radius⟩ iv
      prev := ⟨1, TRANSFORMS.filterMap (seedQuadrant dir none)⟩
      next := ⟨2, []⟩ }
    (by rw [show ((clearReset (Vision.new radius)).set ⟨radius, radius⟩ iv) =
        ((Matrix.new ⟨2 * radius + 1, 2 * radius + 1⟩ (-1)).set
          ⟨radius, radius⟩ iv) from by rw [clearReset_new]]
        exact visInv_after_clear radius eye iv hr hiv)
    (seeded_transforms dir none)
    (fun r hr' => absurd hr' (List.not_mem_nil r))
    (le_refl 1) one_le_two
  have hoff := (executeFuel_frame loss f eye radius radius
    ((radius + 1 - 1).toNat)
    { radius := radius
      offset := (⟨radius, radius⟩ : Point) - eye
      points_seen := [eye]
      visibility := (clearReset (Vision.new radius)).set ⟨radius, radius⟩ iv
      prev := ⟨1, TRANSFORMS.filterMap (seedQuadrant dir none)⟩
      next := ⟨2, []⟩ }).1
  rw [hoff]
  dsimp only
  obtain ⟨hdims, hiff, hcen, hhead, hl2⟩ := hinv
  refine ⟨hiff p, hhead, ?_⟩
  have he : eye + ((⟨radius, radius⟩ : Point) - eye) = (⟨radius, radius⟩ : Point) := by
    obtain ⟨ex, ey⟩ := eye
    simp only [Point.add_def, Point.sub_def, Point.mk.injEq]
    omega
  rw [he]
  exact hcen

set_option maxRecDepth 100000 in
/-- Witness for `compute_seen_iff` at radius 1, a transparent map, initial
    visibility 100, and the point (1,0). -/
theorem compute_seen_iff_witness :
    (0 ≤ ((Vision.new 1).compute (fun _ _ o => o)
        ⟨⟨0, 0⟩, ⟨0, 0⟩, fun _ => 0, 100⟩).get_visibility_at ⟨1, 0⟩ ↔
      (⟨1, 0⟩ : Point) ∈ ((Vision.new 1).compute (fun _ _ o => o)
        ⟨⟨0, 0⟩, ⟨0, 0⟩, fun _ => 0, 100⟩).get_points_seen) ∧
    ((Vision.new 1).compute (fun _ _ o => o)
      ⟨⟨0, 0⟩, ⟨0, 0⟩, fun _ => 0, 100⟩).get_points_seen.head? = some ⟨0, 0⟩ ∧
    ((Vision.new 1).compute (fun _ _ o => o)
      ⟨⟨0, 0⟩, ⟨0, 0⟩, fun _ => 0, 100⟩).get_visibility_at ⟨0, 0⟩ = 100 :=
  compute_seen_iff (fun _ _ o => o) 1 ⟨0, 0⟩ ⟨0, 0⟩ (fun _ => 0) 100 ⟨1, 0⟩
    (by decide) (by decide)

/-! ## Claim C2: symmetry in open terrain -/

theorem neg_tmod_eq (a b : Int) : Int.tmod (-a) b = -(Int.tmod a b) := by
  rw [Int.tmod_def, Int.tmod_def, Int.neg_tdiv]
  ring

theorem neg_lt_tmod (a : Int) {b : Int} (hb : 0 < b) : -b < Int.tmod a b := by
  have h := Int.tmod_lt_of_pos (-a) hb
  rw [neg_tmod_eq] at h
  omega

theorem div_floor_eq_ediv {a b : Int} (hb : 0 < b) : div_floor a b = a / b := by
  have hid := Int.tdiv_add_tmod a b
  have hup := Int.tmod_lt_of_pos a hb
  have hlo := neg_lt_tmod a hb
  unfold div_floor
  dsimp only
  split_ifs with hc
  · have hr : a.tmod b < 0 := by
      rcases hc with ⟨_, h⟩ | ⟨h, _⟩
      · omega
      · exact h
    have harith : (a.tmod b + b) + b * (a.tdiv b - 1) = a := by
      have : b * (a.tdiv b - 1) = b * a.tdiv b - b := by ring
      rw [this]
      omega
    exact ((Int.ediv_emod_unique hb).mpr ⟨harith, by omega, by omega⟩).1.symm
  · have hr : 0 ≤ a.tmod b := by
      push_neg at hc
      omega
    exact ((Int.ediv_emod_unique hb).mpr ⟨by omega, hr, hup⟩).1.symm

theorem div_ceil_eq_neg_div_floor (a : Int) {b : Int} (hb : 0 < b) :
    div_ceil a b = -div_floor (-a) b := by
  unfold div_ceil div_floor
  dsimp only
  rw [Int.neg_tdiv, neg_tmod_eq]
  split_ifs <;> omega

theorem div_floor_le_iff {a b : Int} (hb : 0 < b) (w : Int) :
    div_floor a b ≤ w ↔ a < b * (w + 1) := by
  rw [div_floor_eq_ediv hb]
  constructor
  · intro h
    by_contra hc
    push_neg at hc
    rw [mul_comm] at hc
    have h2 := (Int.le_ediv_iff_mul_le hb).mpr hc
    linarith
  · intro h
    by_contra hc
    push_neg at hc
    have h2 := (Int.le_ediv_iff_mul_le hb).mp (Int.add_one_le_iff.mpr hc)
    rw [mul_comm] at h2
    linarith

theorem le_div_ceil_iff {a b : Int} (hb : 0 < b) (w : Int) :
    w ≤ div_ceil a b ↔ b * (w - 1) < a := by
  rw [div_ceil_eq_neg_div_floor a hb, le_neg, div_floor_le_iff hb]
  have hr : b * (-w + 1) = -(b * (w - 1)) := by ring
  rw [hr]
  exact ⟨fun h => by linarith, fun h => by linarith⟩

theorem mem_intRangeAux {lo : Int} {n : Nat} {w : Int} :
    w ∈ intRangeAux lo n ↔ lo ≤ w ∧ w < lo + n := by
  induction n generalizing lo with
  | zero => simp [intRangeAux]
  | succ m ih =>
    simp only [intRangeAux, List.mem_cons, ih]
    constructor
    · rintro (rfl | ⟨h1, h2⟩)
      · constructor
        · omega
        · push_cast
          omega
      · constructor
        · omega
        · push_cast at h2 ⊢
          omega
    · intro ⟨h1, h2⟩
      by_cases hw : w = lo
      · exact Or.inl hw
      · refine Or.inr ⟨by omega, ?_⟩
        push_cast at h2 ⊢
        omega

theorem mem_intRange {lo hi w : Int} : w ∈ intRange lo hi ↔ lo ≤ w ∧ w ≤ hi := by
  unfold intRange
  rw [mem_intRangeAux]
  omega

theorem intRangeAux_append (lo : Int) (m n : Nat) :
    intRangeAux lo (m + n) = intRangeAux lo m ++ intRangeAux (lo + m) n := by
  induction m generalizing lo with
  | zero => simp [intRangeAux]
  | succ k ih =>
    rw [Nat.succ_add]
    show lo :: intRangeAux (lo + 1) (k + n) = _
    rw [ih]
    have hc : lo + 1 + (k : Int) = lo + ((k + 1 : Nat) : Int) := by
      push_cast
      ring
    rw [show intRangeAux lo (k + 1) ++ intRangeAux (lo + ((k + 1 : Nat) : Int)) n =
      (lo :: intRangeAux (lo + 1) k) ++ intRangeAux (lo + ((k + 1 : Nat) : Int)) n from rfl]
    rw [← hc]
    rfl

theorem intRange_append {lo mid hi : Int} (h1 : lo ≤ mid + 1) (h2 : mid ≤ hi) :
    intRange lo hi = intRange lo mid ++ intRange (mid + 1) hi := by
  unfold intRange
  have hn : (hi + 1 - lo).toNat = (mid + 1 - lo).toNat + (hi - mid).toNat := by
    omega
  rw [hn, intRangeAux_append]
  have hc : lo + (((mid + 1 - lo).toNat : Nat) : Int) = mid + 1 := by omega
  rw [hc]
  have hn2 : (hi - mid).toNat = (hi + 1 - (mid + 1)).toNat := by omega
  rw [hn2]

theorem circW_nonneg (r2 d : Int) : 0 ≤ circW r2 d := Int.natCast_nonneg _

theorem nearby_iff {r2 d : Int} (h : 0 ≤ r2 - d * d) (w : Int) :
    d * d + w * w ≤ r2 ↔ -circW r2 d ≤ w ∧ w ≤ circW r2 d := by
  have key : w.natAbs ≤ Nat.sqrt (r2 - d * d).toNat ↔ w * w ≤ r2 - d * d := by
    rw [Nat.le_sqrt]
    constructor
    · intro hh
      have h2 : ((w.natAbs * w.natAbs : Nat) : Int) ≤ ((r2 - d * d).toNat : Int) := by
        exact_mod_cast hh
      rw [Int.natAbs_mul_self] at h2
      rwa [Int.toNat_of_nonneg h] at h2
    · intro hh
      have h2 : ((w.natAbs * w.natAbs : Nat) : Int) ≤ r2 - d * d := by
        rw [Int.natAbs_mul_self]
        exact hh
      exact (Int.le_toNat h).mpr h2
  unfold circW
  constructor
  · intro hh
    have h3 := key.mpr (by linarith)
    omega
  · intro hh
    have h3 : w.natAbs ≤ Nat.sqrt (r2 - d * d).toNat := by omega
    have h4 := key.mp h3
    linarith

theorem circW_mono {r2 d : Int} (hd : 0 ≤ d) : circW r2 (d + 1) ≤ circW r2 d := by
  unfold circW
  have h1 : r2 - (d + 1) * (d + 1) ≤ r2 - d * d := by nlinarith
  have h2 : (r2 - (d + 1) * (d + 1)).toNat ≤ (r2 - d * d).toNat :=
    Int.toNat_le_toNat h1
  exact_mod_cast Nat.sqrt_le_sqrt h2

theorem intRange_cons {lo hi : Int} (h : lo ≤ hi) :
    intRange lo hi = lo :: intRange (lo + 1) hi := by
  unfold intRange
  have hn : (hi + 1 - lo).toNat = (hi + 1 - (lo + 1)).toNat + 1 := by omega
  rw [hn]
  rfl

theorem nextVisibility_transparent (loss : Int → Int → Int → Int)
    (f : Point → Int) (eye : Point) (r2 : Int) (t : Transform) (rv depth w : Int)
    (hn : depth * depth + w * w ≤ r2) (h0 : f (t.mul ⟨depth, w⟩ + eye) = 0) :
    nextVisibility loss f eye r2 t rv depth w = rv := by
  simp only [nextVisibility]
  rw [if_neg (not_not_intro hn), if_pos h0]

theorem cellStep_dead (loss : Int → Int → Int → Int) (f : Point → Int)
    (eye center : Point) (r2 : Int) (t : Transform) (rv depth : Int) {w : Int}
    (hnv : nextVisibility loss f eye r2 t rv depth w = -1)
    (mn : Slope) {pv : Int} (hpv : pv < 0) (rs : RowState) :
    cellStep loss f eye center r2 t rv depth (mn, pv, rs) w = (mn, -1, rs) := by
  simp only [cellStep]
  rw [hnv]
  rw [if_neg (by omega : ¬ (0 : Int) ≤ -1)]
  rw [if_neg (by omega : ¬ (pv ≠ (-1 : Int) ∧ 0 ≤ pv))]

theorem cellStep_live (loss : Int → Int → Int → Int) (f : Point → Int)
    (eye center : Point) (r2 : Int) (t : Transform) (rv depth : Int) {w : Int}
    (hnv : nextVisibility loss f eye r2 t rv depth w = rv) (hrv : 0 < rv)
    (mn : Slope) {pv : Int} (hpv : pv < 0 ∨ pv = rv) (rs : RowState) :
    cellStep loss f eye center r2 t rv depth (mn, pv, rs) w =
      (mn, rv,
        { rs with
          vis := rs.vis.set (t.mul ⟨depth, w⟩ + center)
            (max (rs.vis.get (t.mul ⟨depth, w⟩ + center)) rv)
          seen := if rs.vis.get (t.mul ⟨depth, w⟩ + center) < 0 then
            rs.seen ++ [t.mul ⟨depth, w⟩ + eye] else rs.seen }) := by
  simp only [cellStep]
  rw [hnv]
  rw [if_pos (le_of_lt hrv)]
  rw [if_neg (by omega : ¬ (pv ≠ rv ∧ 0 ≤ pv))]

theorem cellStep_exit (loss : Int → Int → Int → Int) (f : Point → Int)
    (eye center : Point) (r2 : Int) (t : Transform) (rv depth : Int) {w : Int}
    (hnv : nextVisibility loss f eye r2 t rv depth w = -1) (hrv : 0 < rv)
    (mn : Slope) (rs : RowState) :
    cellStep loss f eye center r2 t rv depth (mn, rv, rs) w =
      (⟨2 * w - 1, 2 * depth⟩, -1,
        { rs with out := pushRange rs.out ⟨mn, ⟨2 * w - 1, 2 * depth⟩, t, rv⟩ }) := by
  simp only [cellStep]
  rw [hnv]
  rw [if_neg (by omega : ¬ (0 : Int) ≤ -1)]
  rw [if_pos (by omega : rv ≠ (-1 : Int) ∧ 0 ≤ rv)]
  rw [if_pos hrv]

theorem pushRange_no_merge {items : List SlopeRange} {s : SlopeRange}
    (h : ∀ x, items.getLast? = some x → x.transform ≠ s.transform) :
    pushRange items s = items ++ [s] := by
  unfold pushRange
  rcases hl : items.getLast? with _ | x
  · rfl
  · dsimp only
    rw [if_neg (fun hc => h x hl hc.2.2)]

theorem Matrix.get_set_cases (m : Matrix Int) (q : Point) (val : Int) (p : Point) :
    (m.set q val).get p = m.get p ∨ (m.set q val).get p = val := by
  rcases hq : m.index q with _ | i
  · left
    have he : m.set q val = m := by
      unfold Matrix.set
      rw [hq]
    rw [he]
  · have hset : m.set q val = { m with data := m.data.set i val } := by
      unfold Matrix.set
      rw [hq]
    unfold Matrix.get
    rw [Matrix.set_index, hset]
    dsimp only
    rcases hp : m.index p with _ | j
    · left
      rfl
    · dsimp only
      rw [List.getD_eq_getElem?_getD, List.getElem?_set]
      by_cases hij : i = j
      · rw [if_pos hij]
        by_cases hlen : i < m.data.length
        · rw [if_pos hlen]
          right
          rfl
        · rw [if_neg hlen]
          left
          rw [List.getD_eq_getElem?_getD, List.getElem?_eq_none (by omega)]
      · rw [if_neg hij]
        left
        rw [List.getD_eq_getElem?_getD]

theorem foldl_dead (loss : Int → Int → Int → Int) (f : Point → Int)
    (eye center : Point) (r2 : Int) (t : Transform) (rv depth : Int) :
    ∀ (l : List Int) (mn : Slope) (rs : RowState),
    (∀ w ∈ l, nextVisibility loss f eye r2 t rv depth w = -1) →
    l.foldl (cellStep loss f eye center r2 t rv depth) (mn, -1, rs) =
      (mn, -1, rs) := by
  intro l
  induction l with
  | nil => intro mn rs _; rfl
  | cons w l ih =>
    intro mn rs hl
    rw [List.foldl_cons,
      cellStep_dead loss f eye center r2 t rv depth
        (hl w (List.mem_cons_self _ _)) mn (by omega) rs]
    exact ih mn rs (fun x hx => hl x (List.mem_cons_of_mem _ hx))

theorem foldl_live (loss : Int → Int → Int → Int) (f : Point → Int)
    (eye center : Point) (r2 : Int) (t : Transform) (rv depth : Int)
    (hrv : 0 < rv) :
    ∀ (l : List Int) (mn : Slope) (pv : Int) (rs : RowState),
    (∀ w ∈ l, nextVisibility loss f eye r2 t rv depth w = rv) →
    (∀ w ∈ l, ∃ i, rs.vis.index (t.mul ⟨depth, w⟩ + center) = some i ∧
      i < rs.vis.data.length) →
    (pv < 0 ∨ pv = rv) →
    ∃ rs' : RowState,
      l.foldl (cellStep loss f eye center r2 t rv depth) (mn, pv, rs) =
        (mn, if l = [] then pv else rv, rs') ∧
      rs'.out = rs.out ∧
      rs'.vis.size = rs.vis.size ∧ rs'.vis.default = rs.vis.default ∧
      rs'.vis.data.length = rs.vis.data.length ∧
      (∀ q, 0 ≤ rs.vis.get q → 0 ≤ rs'.vis.get q) ∧
      (∀ w ∈ l, 0 ≤ rs'.vis.get (t.mul ⟨depth, w⟩ + center)) := by
  intro l
  induction l with
  | nil =>
    intro mn pv rs _ _ _
    exact ⟨rs, rfl, rfl, rfl, rfl, rfl, fun q h => h, fun w hw => absurd hw
      (List.not_mem_nil w)⟩
  | cons w l ih =>
    intro mn pv rs hl hin hpv
    rw [List.foldl_cons,
      cellStep_live loss f eye center r2 t rv depth
        (hl w (List.mem_cons_self _ _)) hrv mn hpv rs]
    obtain ⟨i, hqi, hilt⟩ := hin w (List.mem_cons_self _ _)
    set rs₁ : RowState :=
      { rs with
        vis := rs.vis.set (t.mul ⟨depth, w⟩ + center)
          (max (rs.vis.get (t.mul ⟨depth, w⟩ + center)) rv)
        seen := if rs.vis.get (t.mul ⟨depth, w⟩ + center) < 0 then
          rs.seen ++ [t.mul ⟨depth, w⟩ + eye] else rs.seen } with hrs₁
    have hget₁ := Matrix.get_set_of_index rs.vis hqi hilt
      (max (rs.vis.get (t.mul ⟨depth, w⟩ + center)) rv)
    obtain ⟨rs', hfold, hout, hsize, hdef, hlen, hmono, hwrite⟩ :=
      ih mn rv rs₁
        (fun x hx => hl x (List.mem_cons_of_mem _ hx))
        (fun x hx => by
          obtain ⟨j, hj, hjl⟩ := hin x (List.mem_cons_of_mem _ hx)
          refine ⟨j, ?_, ?_⟩
          · show (rs.vis.set _ _).index _ = some j
            rw [Matrix.set_index]
            exact hj
          · show j < (rs.vis.set _ _).data.length
            rw [Matrix.set_length]
            exact hjl)
        (Or.inr rfl)
    refine ⟨rs', ?_, ?_, ?_, ?_, ?_, ?_, ?_⟩
    · rw [hfold]
      simp
    · exact hout
    · rw [hsize]
      show (rs.vis.set _ _).size = rs.vis.size
      exact Matrix.set_size _ _ _
    · rw [hdef]
      show (rs.vis.set _ _).default = rs.vis.default
      exact Matrix.set_default _ _ _
    · rw [hlen]
      show (rs.vis.set _ _).data.length = rs.vis.data.length
      exact Matrix.set_length _ _ _
    · intro q hq
      apply hmono
      show 0 ≤ (rs.vis.set _ _).get q
      rcases Matrix.get_set_cases rs.vis (t.mul ⟨depth, w⟩ + center)
        (max (rs.vis.get (t.mul ⟨depth, w⟩ + center)) rv) q with he | he
      · rw [he]
        exact hq
      · rw [he]
        omega
    · intro x hx
      rcases List.mem_cons.mp hx with hx | hx
      · subst hx
        apply hmono
        show 0 ≤ (rs.vis.set _ _).get _
        rw [hget₁, if_pos rfl]
        omega
      · exact hwrite x hx

/-- In open terrain, a range whose upper slope still covers the in-disk part
    of row `d` also covers the in-disk part of row `d + 1` (used when the row
    ends before the slope's last column, so the slope is reused unchanged). -/
theorem open_coverage_carry {radius d : Int} {rg : SlopeRange} (hd : 1 ≤ d)
    (hnum : 0 < rg.max.num) (hden : 0 < rg.max.den)
    (hnumden : rg.max.num ≤ rg.max.den)
    (hshape : rg.max = ⟨1, 1⟩ ∨ rg.max.den ≤ 2 * (d - 1))
    (hcov : ∀ w : Int, 0 ≤ w → w ≤ min d (circW (radius * radius + radius) d) →
      (2 * w - 1) * rg.max.den < 2 * rg.max.num * d) :
    ∀ w : Int, 0 ≤ w →
      w ≤ min (d + 1) (circW (radius * radius + radius) (d + 1)) →
      (2 * w - 1) * rg.max.den < 2 * rg.max.num * (d + 1) := by
  intro w hw0 hwle
  have hmono : circW (radius * radius + radius) (d + 1) ≤
      circW (radius * radius + radius) d := circW_mono (by omega)
  rcases le_or_lt w (min d (circW (radius * radius + radius) d)) with hle | hlt
  · have h1 := hcov w hw0 hle
    linarith [h1, hnum]
  · have hwW : w ≤ circW (radius * radius + radius) d := by omega
    have hwd : w ≤ d + 1 := by omega
    rcases hshape with h11 | hden2
    · rw [h11]
      show (2 * w - 1) * 1 < 2 * 1 * (d + 1)
      omega
    · rcases eq_or_lt_of_le hnumden with heq | hlt2
      · rw [heq]
        nlinarith [mul_lt_mul_of_pos_right
          (show 2 * w - 1 < 2 * (d + 1) by omega) hden]
      · exfalso
        have hdd := hcov d (by omega) (by omega)
        nlinarith [hdd, mul_le_mul_of_nonneg_right
          (show 2 * rg.max.num ≤ 2 * (rg.max.den - 1) by omega)
          (show (0 : Int) ≤ d by omega)]

/-- One row of the sweep over fully open terrain: processing an `OpenRange`
    at depth `d` appends exactly one child range (an `OpenRange` for depth
    `d + 1`) to the output, preserves the matrix shape, never unlights a lit
    cell, and lights every in-disk cell of the row. -/
theorem processRange_open (loss : Int → Int → Int → Int) (f : Point → Int)
    (eye : Point) {radius : Int} (hr : 0 ≤ radius)
    {d : Int} (hd : 1 ≤ d) (hdr : d ≤ radius)
    (hf : ∀ q : Point, q.len_l2_squared ≤ radius * radius + radius →
      f (q + eye) = 0)
    {t : Transform} (ht : t ∈ TRANSFORMS)
    {rg : SlopeRange} (hrg : OpenRange radius d t rg)
    (rs : RowState) (hdims : MatrixDims radius rs.vis)
    (hlast : ∀ x, rs.out.getLast? = some x → x.transform ≠ t) :
    ∃ (rs' : RowState) (child : SlopeRange),
      processRange loss f eye ⟨radius, radius⟩ (radius * radius + radius) d rs rg
        = rs' ∧
      rs'.out = rs.out ++ [child] ∧
      OpenRange radius (d + 1) t child ∧
      MatrixDims radius rs'.vis ∧
      (∀ q, 0 ≤ rs.vis.get q → 0 ≤ rs'.vis.get q) ∧
      (∀ w : Int,
        -(min d (circW (radius * radius + radius) d)) ≤ w →
        w ≤ min d (circW (radius * radius + radius) d) →
        0 ≤ rs'.vis.get (t.mul ⟨d, w⟩ + ⟨radius, radius⟩)) := by
  obtain ⟨hmin, htr, hvis, hnum, hden, hnumden, hshape, hcov⟩ := hrg
  have hrvpos : 0 < rg.visibility := by
    rw [hvis]
    norm_num [INITIAL_VISIBILITY]
  have hdisk : 0 ≤ radius * radius + radius - d * d := by nlinarith
  obtain ⟨W, hWeq⟩ : ∃ x : Int, circW (radius * radius + radius) d = x := ⟨_, rfl⟩
  have hWnn : 0 ≤ W := by
    rw [← hWeq]
    exact circW_nonneg _ _
  have hcovW := hcov
  rw [hWeq] at hcovW
  have hstart : div_floor (2 * rg.min.num * d + rg.min.den) (2 * rg.min.den)
      = -d := by
    rw [hmin]
    show div_floor (2 * (-1) * d + 1) (2 * 1) = -d
    have h1 : div_floor (2 * (-1) * d + 1) (2 * 1) ≤ -d := by
      rw [div_floor_le_iff (by omega)]
      omega
    have h2 : ¬ div_floor (2 * (-1) * d + 1) (2 * 1) ≤ -d - 1 := by
      rw [div_floor_le_iff (by omega)]
      omega
    omega
  obtain ⟨F, hF⟩ : ∃ x : Int,
      div_ceil (2 * rg.max.num * d - rg.max.den) (2 * rg.max.den) = x := ⟨_, rfl⟩
  have hfin_iff : ∀ w : Int,
      w ≤ F ↔ (2 * w - 1) * rg.max.den < 2 * rg.max.num * d := by
    intro w
    rw [← hF, le_div_ceil_iff (by omega)]
    constructor <;> intro h <;> nlinarith
  have hF0 : 0 ≤ F := by
    rw [hfin_iff]
    nlinarith [mul_pos hnum (show (0 : Int) < d by omega)]
  have hFd : F ≤ d := by
    by_contra hc
    push_neg at hc
    have h1 := (hfin_iff (d + 1)).mp (by omega)
    nlinarith [h1, mul_nonneg (show (0 : Int) ≤ rg.max.den - rg.max.num by omega)
      (show (0 : Int) ≤ d by omega)]
  have hVF : min d W ≤ F := by
    rw [hfin_iff]
    exact hcovW _ (by omega) (le_refl _)
  have hnvdead : ∀ w : Int, (w < -W ∨ W < w) →
      nextVisibility loss f eye (radius * radius + radius) t rg.visibility d w
        = -1 := by
    intro w hw
    apply nextVisibility_not_nearby
    rw [nearby_iff hdisk, hWeq]
    omega
  have hnvlive : ∀ w : Int, -W ≤ w → w ≤ W →
      nextVisibility loss f eye (radius * radius + radius) t rg.visibility d w
        = rg.visibility := by
    intro w h1 h2
    have hnear : d * d + w * w ≤ radius * radius + radius := by
      rw [nearby_iff hdisk, hWeq]
      exact ⟨h1, h2⟩
    exact nextVisibility_transparent _ _ _ _ _ _ _ _ hnear
      (hf _ (by rw [transform_mul_l2 ht]; exact hnear))
  have hbounds : ∀ w : Int, -W ≤ w → w ≤ W →
      ∃ i, rs.vis.index (t.mul ⟨d, w⟩ + (⟨radius, radius⟩ : Point)) = some i ∧
        i < rs.vis.data.length := by
    intro w h1 h2
    have hnear : d * d + w * w ≤ radius * radius + radius := by
      rw [nearby_iff hdisk, hWeq]
      exact ⟨h1, h2⟩
    obtain ⟨hx1, hx2, hy1, hy2⟩ := transform_point_in_bounds ht hr hnear
    apply index_some_of_bounds hdims <;> simp only [Point.add_def] <;> omega
  by_cases hsplit : W < F
  · -- the range is split: the row's live cells end at column W < fin,
    -- so the slope is sharpened to (2(W+1)-1)/(2d) at column W + 1.
    have hWd : W < d := by omega
    have hdec1 : intRange (-d) F = intRange (-d) (-W - 1) ++ intRange (-W) F := by
      have h := @intRange_append (-d) (-W - 1) F (by omega) (by omega)
      rw [show -W - 1 + 1 = -W from by ring] at h
      exact h
    have hdec2 : intRange (-W) F = intRange (-W) W ++ intRange (W + 1) F :=
      @intRange_append (-W) W F (by omega) (by omega)
    have hAdead := foldl_dead loss f eye ⟨radius, radius⟩
      (radius * radius + radius) t rg.visibility d (intRange (-d) (-W - 1))
      rg.min rs
      (fun w hw => hnvdead w (Or.inl (by
        obtain ⟨h1, h2⟩ := mem_intRange.mp hw
        omega)))
    obtain ⟨rsB, hfoldB, houtB, hsizeB, hdefB, hlenB, hmonoB, hwriteB⟩ :=
      foldl_live loss f eye ⟨radius, radius⟩ (radius * radius + radius) t
        rg.visibility d hrvpos (intRange (-W) W) rg.min (-1) rs
        (fun w hw => by
          obtain ⟨h1, h2⟩ := mem_intRange.mp hw
          exact hnvlive w h1 h2)
        (fun w hw => by
          obtain ⟨h1, h2⟩ := mem_intRange.mp hw
          exact hbounds w h1 h2)
        (Or.inl (by omega))
    have h0mem : (0 : Int) ∈ intRange (-W) W := mem_intRange.mpr ⟨by omega, by omega⟩
    rw [if_neg (List.ne_nil_of_mem h0mem)] at hfoldB
    have hCcons : intRange (W + 1) F = (W + 1) :: intRange (W + 2) F := by
      rw [intRange_cons (by omega), show W + 1 + 1 = W + 2 from by ring]
    have hexit := cellStep_exit loss f eye ⟨radius, radius⟩
      (radius * radius + radius) t rg.visibility d
      (hnvdead (W + 1) (Or.inr (by omega))) hrvpos rg.min rsB
    have htail := foldl_dead loss f eye ⟨radius, radius⟩
      (radius * radius + radius) t rg.visibility d (intRange (W + 2) F)
      ⟨2 * (W + 1) - 1, 2 * d⟩
      { rsB with out := (pushRange rsB.out
          ⟨rg.min, ⟨2 * (W + 1) - 1, 2 * d⟩, t, rg.visibility⟩) }
      (fun w hw => hnvdead w (Or.inr (by
        obtain ⟨h1, h2⟩ := mem_intRange.mp hw
        omega)))
    have hfold : (intRange (-d) F).foldl
        (cellStep loss f eye ⟨radius, radius⟩ (radius * radius + radius) t
          rg.visibility d) (rg.min, -1, rs)
        = (⟨2 * (W + 1) - 1, 2 * d⟩, -1,
            { rsB with out := (pushRange rsB.out
                ⟨rg.min, ⟨2 * (W + 1) - 1, 2 * d⟩, t, rg.visibility⟩) }) := by
      rw [hdec1, List.foldl_append, hAdead, hdec2, List.foldl_append, hfoldB,
        hCcons, List.foldl_cons, hexit, htail]
    have hpr : processRange loss f eye ⟨radius, radius⟩
        (radius * radius + radius) d rs rg
        = { rsB with out := (pushRange rsB.out
            ⟨rg.min, ⟨2 * (W + 1) - 1, 2 * d⟩, t, rg.visibility⟩) } := by
      unfold processRange
      dsimp only
      rw [htr, hstart, hF, hfold]
      rw [if_neg (by norm_num : ¬ (0 : Int) < -1)]
    refine ⟨_, ⟨rg.min, ⟨2 * (W + 1) - 1, 2 * d⟩, t, rg.visibility⟩, hpr,
      ?_, ?_, ?_, ?_, ?_⟩
    · show pushRange rsB.out _ = rs.out ++ [_]
      rw [houtB]
      exact pushRange_no_merge hlast
    · refine ⟨hmin, rfl, hvis, ?_, ?_, ?_, ?_, ?_⟩
      · show (0 : Int) < 2 * (W + 1) - 1
        omega
      · show (0 : Int) < 2 * d
        omega
      · show 2 * (W + 1) - 1 ≤ 2 * d
        omega
      · exact Or.inr (by show 2 * d ≤ 2 * (d + 1 - 1); omega)
      · intro w' hw'0 hw'le
        show (2 * w' - 1) * (2 * d) < 2 * (2 * (W + 1) - 1) * (d + 1)
        have hmono : circW (radius * radius + radius) (d + 1) ≤
            circW (radius * radius + radius) d := circW_mono (by omega)
        rw [hWeq] at hmono
        have hw'W : w' ≤ W := by omega
        have key : (2 * w' - 1) * (2 * d) ≤ (2 * W - 1) * (2 * d) :=
          mul_le_mul_of_nonneg_right (by omega) (by omega)
        nlinarith [key]
    · show MatrixDims radius rsB.vis
      obtain ⟨hs, hdf, hl⟩ := hdims
      exact ⟨by rw [hsizeB]; exact hs, by rw [hdefB]; exact hdf,
        by rw [hlenB]; exact hl⟩
    · intro q hq
      exact hmonoB q hq
    · intro w h1 h2
      rw [hWeq] at h1 h2
      exact hwriteB w (mem_intRange.mpr ⟨by omega, by omega⟩)
  · -- no split: the whole live part of the row keeps visibility, and the
    -- parent's upper slope is pushed unchanged for the next row.
    push_neg at hsplit
    obtain ⟨V, hVeq⟩ : ∃ x : Int, min d W = x := ⟨_, rfl⟩
    have hVF2 : V ≤ F := by
      rw [← hVeq]
      exact hVF
    have hdec1 : intRange (-d) F = intRange (-d) (-V - 1) ++ intRange (-V) F := by
      have h := @intRange_append (-d) (-V - 1) F (by omega) (by omega)
      rw [show -V - 1 + 1 = -V from by ring] at h
      exact h
    have hAdead := foldl_dead loss f eye ⟨radius, radius⟩
      (radius * radius + radius) t rg.visibility d (intRange (-d) (-V - 1))
      rg.min rs
      (fun w hw => hnvdead w (Or.inl (by
        obtain ⟨h1, h2⟩ := mem_intRange.mp hw
        omega)))
    obtain ⟨rsB, hfoldB, houtB, hsizeB, hdefB, hlenB, hmonoB, hwriteB⟩ :=
      foldl_live loss f eye ⟨radius, radius⟩ (radius * radius + radius) t
        rg.visibility d hrvpos (intRange (-V) F) rg.min (-1) rs
        (fun w hw => by
          obtain ⟨h1, h2⟩ := mem_intRange.mp hw
          exact hnvlive w (by omega) (by omega))
        (fun w hw => by
          obtain ⟨h1, h2⟩ := mem_intRange.mp hw
          exact hbounds w (by omega) (by omega))
        (Or.inl (by omega))
    have h0mem : (0 : Int) ∈ intRange (-V) F := mem_intRange.mpr ⟨by omega, by omega⟩
    rw [if_neg (List.ne_nil_of_mem h0mem)] at hfoldB
    have hfold : (intRange (-d) F).foldl
        (cellStep loss f eye ⟨radius, radius⟩ (radius * radius + radius) t
          rg.visibility d) (rg.min, -1, rs)
        = (rg.min, rg.visibility, rsB) := by
      rw [hdec1, List.foldl_append, hAdead, hfoldB]
    have hpr : processRange loss f eye ⟨radius, radius⟩
        (radius * radius + radius) d rs rg
        = { rsB with out := (pushRange rsB.out
            ⟨rg.min, rg.max, t, rg.visibility⟩) } := by
      unfold processRange
      dsimp only
      rw [htr, hstart, hF, hfold]
      rw [if_pos hrvpos]
    refine ⟨_, ⟨rg.min, rg.max, t, rg.visibility⟩, hpr, ?_, ?_, ?_, ?_, ?_⟩
    · show pushRange rsB.out _ = rs.out ++ [_]
      rw [houtB]
      exact pushRange_no_merge hlast
    · refine ⟨hmin, rfl, hvis, hnum, hden, hnumden, ?_, ?_⟩
      · rcases hshape with h | h
        · exact Or.inl h
        · exact Or.inr (by show rg.max.den ≤ 2 * (d + 1 - 1); omega)
      · exact open_coverage_carry hd hnum hden hnumden hshape hcov
    · show MatrixDims radius rsB.vis
      obtain ⟨hs, hdf, hl⟩ := hdims
      exact ⟨by rw [hsizeB]; exact hs, by rw [hdefB]; exact hdf,
        by rw [hlenB]; exact hl⟩
    · intro q hq
      exact hmonoB q hq
    · intro w h1 h2
      rw [hWeq] at h1 h2
      exact hwriteB w (mem_intRange.mpr ⟨by omega, by omega⟩)

theorem cellStep_get_mono (loss : Int → Int → Int → Int) (f : Point → Int)
    (eye center : Point) (r2 : Int) (t : Transform) (rv depth : Int)
    (acc : Slope × Int × RowState) (w : Int) (q : Point)
    (h : 0 ≤ acc.2.2.vis.get q) :
    0 ≤ (cellStep loss f eye center r2 t rv depth acc w).2.2.vis.get q := by
  obtain ⟨mn, pv, rs⟩ := acc
  have hvis : (cellStep loss f eye center r2 t rv depth (mn, pv, rs) w).2.2.vis
      = if 0 ≤ nextVisibility loss f eye r2 t rv depth w then
          rs.vis.set (t.mul ⟨depth, w⟩ + center)
            (max (rs.vis.get (t.mul ⟨depth, w⟩ + center))
              (nextVisibility loss f eye r2 t rv depth w))
        else rs.vis := by
    simp only [cellStep]
    split_ifs <;> rfl
  rw [hvis]
  split_ifs with hc
  · rcases Matrix.get_set_cases rs.vis (t.mul ⟨depth, w⟩ + center)
      (max (rs.vis.get (t.mul ⟨depth, w⟩ + center))
        (nextVisibility loss f eye r2 t rv depth w)) q with he | he
    · rw [he]
      exact h
    · rw [he]
      exact le_trans hc (le_max_right _ _)
  · exact h

theorem processRange_get_mono (loss : Int → Int → Int → Int) (f : Point → Int)
    (eye center : Point) (r2 depth : Int) (rs : RowState) (r : SlopeRange)
    (q : Point) (h : 0 ≤ rs.vis.get q) :
    0 ≤ (processRange loss f eye center r2 depth rs r).vis.get q := by
  have hfold := foldl_inv
    (fun acc : Slope × Int × RowState => 0 ≤ acc.2.2.vis.get q)
    (fun _ => True)
    (cellStep loss f eye center r2 r.transform r.visibility depth)
    (intRange (div_floor (2 * r.min.num * depth + r.min.den) (2 * r.min.den))
      (div_ceil (2 * r.max.num * depth - r.max.den) (2 * r.max.den)))
    (fun _ _ => trivial)
    (fun acc b _ hP => cellStep_get_mono loss f eye center r2 r.transform
      r.visibility depth acc b q hP)
    (r.min, -1, rs) h
  unfold processRange
  dsimp only
  split_ifs
  · exact hfold
  · exact hfold

theorem executeFuel_get_mono (loss : Int → Int → Int → Int) (f : Point → Int)
    (eye : Point) (radius limit : Int) (q : Point) :
    ∀ (fuel : Nat) (st : Vision), 0 ≤ st.visibility.get q →
    0 ≤ (executeFuel loss f eye radius limit fuel st).visibility.get q := by
  intro fuel
  induction fuel with
  | zero => exact fun st h => h
  | succ n ih =>
    intro st h
    rw [executeFuel]
    split_ifs with hc
    · dsimp only
      apply ih
      exact foldl_inv
        (fun rs : RowState => 0 ≤ rs.vis.get q) (fun _ => True)
        (processRange loss f eye ⟨radius, radius⟩ (radius * radius + radius)
          st.prev.depth)
        st.prev.items (fun _ _ => trivial)
        (fun rs r _ hP => processRange_get_mono loss f eye ⟨radius, radius⟩
          (radius * radius + radius) st.prev.depth rs r q hP)
        ⟨st.visibility, st.points_seen, st.next.items⟩ h
    · exact h

/-- A whole row of the sweep over open terrain: folding `processRange` over a
    list of `OpenRange`s (one per distinct transform) appends exactly one
    child `OpenRange` per item and lights every in-disk cell of row `d` in
    each of those quadrants. -/
theorem processItems_open (loss : Int → Int → Int → Int) (f : Point → Int)
    (eye : Point) {radius : Int} (hr : 0 ≤ radius)
    {d : Int} (hd : 1 ≤ d) (hdr : d ≤ radius)
    (hf : ∀ q : Point, q.len_l2_squared ≤ radius * radius + radius →
      f (q + eye) = 0) :
    ∀ {ts : List Transform} {items : List SlopeRange},
    List.Forall₂ (fun t rg => OpenRange radius d t rg) ts items →
    ∀ rs : RowState,
    (∀ t ∈ ts, t ∈ TRANSFORMS) → ts.Nodup →
    MatrixDims radius rs.vis →
    (∀ x, rs.out.getLast? = some x → x.transform ∉ ts) →
    ∃ (rs' : RowState) (children : List SlopeRange),
      items.foldl (processRange loss f eye ⟨radius, radius⟩
        (radius * radius + radius) d) rs = rs' ∧
      rs'.out = rs.out ++ children ∧
      List.Forall₂ (fun t rg => OpenRange radius (d + 1) t rg) ts children ∧
      MatrixDims radius rs'.vis ∧
      (∀ q, 0 ≤ rs.vis.get q → 0 ≤ rs'.vis.get q) ∧
      (∀ t ∈ ts, ∀ w : Int,
        -(min d (circW (radius * radius + radius) d)) ≤ w →
        w ≤ min d (circW (radius * radius + radius) d) →
        0 ≤ rs'.vis.get (t.mul ⟨d, w⟩ + ⟨radius, radius⟩)) := by
  intro ts items hfa
  induction hfa with
  | nil =>
    intro rs _ _ hdims _
    exact ⟨rs, [], rfl, (List.append_nil _).symm, List.Forall₂.nil, hdims,
      fun q h => h, fun t ht => absurd ht (List.not_mem_nil t)⟩
  | @cons t rg ts' items' hrg hfa' ih =>
    intro rs hts hnodup hdims hout
    obtain ⟨rs₁, child, hpr, hout₁, hchild, hdims₁, hmono₁, hwrite₁⟩ :=
      processRange_open loss f eye hr hd hdr hf (hts t (List.mem_cons_self _ _))
        hrg rs hdims
        (fun x hx hc => hout x hx (by rw [hc]; exact List.mem_cons_self t ts'))
    obtain ⟨htmem, hnodup'⟩ := List.nodup_cons.mp hnodup
    have htrc : child.transform = t := hchild.2.1
    obtain ⟨rs', children, hfold, hout', hfa2, hdims', hmono', hwrite'⟩ :=
      ih rs₁ (fun u hu => hts u (List.mem_cons_of_mem _ hu)) hnodup' hdims₁
        (fun x hx => by
          rw [hout₁, List.getLast?_concat] at hx
          injection hx with hxe
          subst hxe
          rw [htrc]
          exact htmem)
    refine ⟨rs', child :: children, ?_, ?_,
      List.Forall₂.cons hchild hfa2, hdims', ?_, ?_⟩
    · rw [List.foldl_cons, hpr]
      exact hfold
    · rw [hout', hout₁, List.append_assoc]
      rfl
    · intro q hq
      exact hmono' q (hmono₁ q hq)
    · intro u hu w h1 h2
      rcases List.mem_cons.mp hu with rfl | hu'
      · exact hmono' _ (hwrite₁ w h1 h2)
      · exact hwrite' u hu' w h1 h2

/-- The whole sweep over open terrain: starting from a state whose pending
    ranges are `OpenRange`s for every quadrant at depth `d`, every in-disk
    cell at every depth from `d` through `radius` ends up lit. -/
theorem executeFuel_open (loss : Int → Int → Int → Int) (f : Point → Int)
    (eye : Point) {radius : Int} (hr : 0 ≤ radius)
    (hf : ∀ q : Point, q.len_l2_squared ≤ radius * radius + radius →
      f (q + eye) = 0) :
    ∀ (fuel : Nat) (st : Vision) (d : Int),
    st.prev.depth = d → 1 ≤ d → st.next.depth = d + 1 →
    List.Forall₂ (fun t rg => OpenRange radius d t rg) TRANSFORMS st.prev.items →
    st.next.items = [] →
    MatrixDims radius st.visibility →
    fuel = (radius + 1 - d).toNat →
    ∀ (e w : Int) (t : Transform), t ∈ TRANSFORMS →
      d ≤ e → e ≤ radius →
      -(min e (circW (radius * radius + radius) e)) ≤ w →
      w ≤ min e (circW (radius * radius + radius) e) →
      0 ≤ (executeFuel loss f eye radius radius fuel st).visibility.get
        (t.mul ⟨e, w⟩ + ⟨radius, radius⟩) := by
  intro fuel
  induction fuel with
  | zero =>
    intro st d hdep hd1 hnd hfa hni hdims hfuel e w t ht hde her h1 h2
    exfalso
    omega
  | succ n ih =>
    intro st d hdep hd1 hnd hfa hni hdims hfuel e w t ht hde her h1 h2
    have hdr : d ≤ radius := by omega
    have hne : st.prev.items ≠ [] := by
      intro hc
      have hl := List.Forall₂.length_eq hfa
      rw [hc] at hl
      simp [TRANSFORMS] at hl
    rw [executeFuel]
    rw [if_pos ⟨by omega, hne⟩]
    dsimp only
    rw [hdep, hnd, hni]
    obtain ⟨rs', children, hfold, hout', hfa', hdims', hmono', hwrite'⟩ :=
      processItems_open loss f eye hr hd1 hdr hf hfa
        ⟨st.visibility, st.points_seen, []⟩
        (fun u hu => hu) (by decide) hdims
        (fun x hx => by simp at hx)
    rw [hfold]
    rcases eq_or_lt_of_le hde with rfl | hlt
    · apply executeFuel_get_mono
      exact hwrite' t ht w h1 h2
    · apply ih _ (d + 1) rfl (by omega) (by show d + 2 = d + 1 + 1; omega)
        (by
          show List.Forall₂ _ TRANSFORMS rs'.out
          rw [hout', List.nil_append]
          exact hfa')
        rfl hdims' (by omega) e w t ht (by omega) her h1 h2

/-- With no facing direction and no target, `seed_ranges` seeds each quadrant
    with the full range −1/1 … 1/1 at visibility 100, which is an `OpenRange`
    for the first row. -/
theorem open_seed_forall (radius : Int) :
    List.Forall₂ (fun t rg => OpenRange radius 1 t rg) TRANSFORMS
      (TRANSFORMS.filterMap (seedQuadrant (⟨0, 0⟩ : Point) none)) := by
  have hOR : ∀ t : Transform,
      OpenRange radius 1 t ⟨⟨-1, 1⟩, ⟨1, 1⟩, t, INITIAL_VISIBILITY⟩ := by
    intro t
    refine ⟨rfl, rfl, rfl, ?_, ?_, ?_, Or.inl rfl, ?_⟩
    · show (0 : Int) < 1
      omega
    · show (0 : Int) < 1
      omega
    · show (1 : Int) ≤ 1
      omega
    · intro w h1 h2
      show (2 * w - 1) * 1 < 2 * 1 * 1
      have hw : w ≤ 1 := le_trans h2 (min_le_left _ _)
      omega
  have hseed : TRANSFORMS.filterMap (seedQuadrant (⟨0, 0⟩ : Point) none)
      = [⟨⟨-1, 1⟩, ⟨1, 1⟩, ⟨1, 0, 0, 1⟩, INITIAL_VISIBILITY⟩,
         ⟨⟨-1, 1⟩, ⟨1, 1⟩, ⟨0, 1, -1, 0⟩, INITIAL_VISIBILITY⟩,
         ⟨⟨-1, 1⟩, ⟨1, 1⟩, ⟨-1, 0, 0, -1⟩, INITIAL_VISIBILITY⟩,
         ⟨⟨-1, 1⟩, ⟨1, 1⟩, ⟨0, -1, 1, 0⟩, INITIAL_VISIBILITY⟩] := by rfl
  rw [hseed]
  exact List.Forall₂.cons (hOR _) (List.Forall₂.cons (hOR _)
    (List.Forall₂.cons (hOR _) (List.Forall₂.cons (hOR _) List.Forall₂.nil)))

/-- Every nonzero offset lies in one of the four quadrant cones: it is the
    image under some transform of a cell `(d, w)` with `1 ≤ d` and
    `|w| ≤ d`, where `d` is its Chebyshev length. -/
theorem exists_quadrant_repr (q : Point) (hq : q ≠ (⟨0, 0⟩ : Point)) :
    ∃ t ∈ TRANSFORMS, ∃ d w : Int, 1 ≤ d ∧ -d ≤ w ∧ w ≤ d ∧
      t.mul ⟨d, w⟩ = q := by
  obtain ⟨x, y⟩ := q
  have hq0 : ¬ (x = 0 ∧ y = 0) := by
    intro hc
    exact hq (by rw [hc.1, hc.2])
  by_cases h1 : -x ≤ y ∧ y ≤ x
  · exact ⟨⟨1, 0, 0, 1⟩, (mem_TRANSFORMS_iff _).mpr (Or.inl rfl), x, y,
      by omega, by omega, by omega,
      by simp only [Transform.mul, Point.mk.injEq]; constructor <;> ring⟩
  · by_cases h2 : x ≤ y ∧ -y ≤ x
    · exact ⟨⟨0, 1, -1, 0⟩, (mem_TRANSFORMS_iff _).mpr (Or.inr (Or.inl rfl)),
        y, -x, by omega, by omega, by omega,
        by simp only [Transform.mul, Point.mk.injEq]; constructor <;> ring⟩
    · by_cases h3 : x ≤ y ∧ y ≤ -x
      · exact ⟨⟨-1, 0, 0, -1⟩,
          (mem_TRANSFORMS_iff _).mpr (Or.inr (Or.inr (Or.inl rfl))),
          -x, -y, by omega, by omega, by omega,
          by simp only [Transform.mul, Point.mk.injEq]; constructor <;> ring⟩
      · exact ⟨⟨0, -1, 1, 0⟩,
          (mem_TRANSFORMS_iff _).mpr (Or.inr (Or.inr (Or.inr rfl))),
          -y, x, by omega, by omega, by omega,
          by simp only [Transform.mul, Point.mk.injEq]; constructor <;> ring⟩

/-- In open terrain with no facing direction and nonnegative initial
    visibility, the visible set after `compute` is exactly the in-range disk
    (shared by the C2 and C1 claim proofs). -/
theorem open_visible_iff (loss : Int → Int → Int → Int)
    (radius : Int) (eye : Point) (f : Point → Int) (iv : Int) (p : Point)
    (hr : 0 ≤ radius) (hiv : 0 ≤ iv)
    (hop : ∀ q : Point, (q - eye).len_l2_squared ≤ radius * radius + radius →
      f q = 0) :
    0 ≤ ((Vision.new radius).compute loss ⟨eye, ⟨0, 0⟩, f, iv⟩).get_visibility_at p
      ↔ ((p - eye).len_l1 ≤ radius ∧
         (p - eye).len_l2_squared ≤ radius * radius + radius) := by
  have hf : ∀ q : Point, q.len_l2_squared ≤ radius * radius + radius →
      f (q + eye) = 0 := by
    intro q hq2
    apply hop
    have he : q + eye - eye = q := by
      obtain ⟨qx, qy⟩ := q
      obtain ⟨ex, ey⟩ := eye
      simp only [Point.add_def, Point.sub_def, Point.mk.injEq]
      constructor <;> ring
    rw [he]
    exact hq2
  show 0 ≤ (((((Vision.new radius).clear eye iv).seed_ranges ⟨0, 0⟩ none).execute
      loss eye radius f)).get_visibility_at p ↔ _
  rw [show (((Vision.new radius).clear eye iv).seed_ranges ⟨0, 0⟩ none) =
      { radius := radius
        offset := (⟨radius, radius⟩ : Point) - eye
        points_seen := [eye]
        visibility := (clearReset (Vision.new radius)).set ⟨radius, radius⟩ iv
        prev := ⟨1, TRANSFORMS.filterMap (seedQuadrant ⟨0, 0⟩ none)⟩
        next := ⟨2, []⟩ } from rfl]
  unfold Vision.execute Vision.get_visibility_at
  dsimp only
  have hdims0 : MatrixDims radius
      ((clearReset (Vision.new radius)).set ⟨radius, radius⟩ iv) := by
    rw [clearReset_new]
    exact matrixDims_set radius _ _ _ (matrixDims_new radius)
  have hoff := (executeFuel_frame loss f eye radius radius
    ((radius + 1 - 1).toNat)
    { radius := radius
      offset := (⟨radius, radius⟩ : Point) - eye
      points_seen := [eye]
      visibility := (clearReset (Vision.new radius)).set ⟨radius, radius⟩ iv
      prev := ⟨1, TRANSFORMS.filterMap (seedQuadrant ⟨0, 0⟩ none)⟩
      next := ⟨2, []⟩ }).1
  rw [hoff]
  dsimp only
  have hinv := executeFuel_visInv loss f eye radius radius iv hr
    ((radius + 1 - 1).toNat)
    { radius := radius
      offset := (⟨radius, radius⟩ : Point) - eye
      points_seen := [eye]
      visibility := (clearReset (Vision.new radius)).set ⟨radius, radius⟩ iv
      prev := ⟨1, TRANSFORMS.filterMap (seedQuadrant ⟨0, 0⟩ none)⟩
      next := ⟨2, []⟩ }
    (by rw [show ((clearReset (Vision.new radius)).set ⟨radius, radius⟩ iv) =
        ((Matrix.new ⟨2 * radius + 1, 2 * radius + 1⟩ (-1)).set
          ⟨radius, radius⟩ iv) from by rw [clearReset_new]]
        exact visInv_after_clear radius eye iv hr hiv)
    (seeded_transforms ⟨0, 0⟩ none)
    (fun r hr' => absurd hr' (List.not_mem_nil r))
    (le_refl 1) one_le_two
  obtain ⟨hdims, hiff, hcen, hhead, hl2⟩ := hinv
  constructor
  · intro h
    have hl2p := hl2 p h
    have hxy : (p - eye).x * (p - eye).x + (p - eye).y * (p - eye).y ≤
        radius * radius + radius := hl2p
    refine ⟨?_, hl2p⟩
    show max |(p - eye).x| |(p - eye).y| ≤ radius
    have hbx := bound_of_sq_le (show (p - eye).x * (p - eye).x ≤
        radius * radius + radius by nlinarith [mul_self_nonneg (p - eye).y]) hr
    have hby := bound_of_sq_le (show (p - eye).y * (p - eye).y ≤
        radius * radius + radius by nlinarith [mul_self_nonneg (p - eye).x]) hr
    exact max_le (abs_le.mpr hbx) (abs_le.mpr hby)
  · rintro ⟨hcheb, hl2p⟩
    by_cases hp : p = eye
    · subst hp
      have he : p + ((⟨radius, radius⟩ : Point) - p)
          = (⟨radius, radius⟩ : Point) := by
        obtain ⟨px, py⟩ := p
        simp only [Point.add_def, Point.sub_def, Point.mk.injEq]
        constructor <;> ring
      rw [he, hcen]
      exact hiv
    · have hqne : p - eye ≠ (⟨0, 0⟩ : Point) := by
        intro hc
        apply hp
        obtain ⟨px, py⟩ := p
        obtain ⟨ex, ey⟩ := eye
        simp only [Point.sub_def, Point.mk.injEq] at hc
        simp only [Point.mk.injEq]
        omega
      obtain ⟨t, htmem, d, w, hd1, hw1, hw2, hmul⟩ := exists_quadrant_repr _ hqne
      have hdw : d * d + w * w ≤ radius * radius + radius := by
        have hml := transform_mul_l2 htmem d w
        rw [hmul] at hml
        rw [← hml]
        exact hl2p
      have hdisk : 0 ≤ radius * radius + radius - d * d := by
        nlinarith [mul_self_nonneg w]
      have hdr2 : d ≤ radius :=
        (bound_of_sq_le (by nlinarith [mul_self_nonneg w]) hr).2
      have hWw := (nearby_iff hdisk w).mp hdw
      have hpt : p + ((⟨radius, radius⟩ : Point) - eye)
          = t.mul ⟨d, w⟩ + (⟨radius, radius⟩ : Point) := by
        rw [hmul]
        obtain ⟨px, py⟩ := p
        obtain ⟨ex, ey⟩ := eye
        simp only [Point.add_def, Point.sub_def, Point.mk.injEq]
        constructor <;> ring
      rw [hpt]
      exact executeFuel_open loss f eye hr hf ((radius + 1 - 1).toNat)
        { radius := radius
          offset := (⟨radius, radius⟩ : Point) - eye
          points_seen := [eye]
          visibility := (clearReset (Vision.new radius)).set ⟨radius, radius⟩ iv
          prev := ⟨1, TRANSFORMS.filterMap (seedQuadrant ⟨0, 0⟩ none)⟩
          next := ⟨2, []⟩ }
        1 rfl (le_refl 1) (by norm_num) (open_seed_forall radius) rfl hdims0
        rfl d w t htmem hd1 hdr2 (by omega) (by omega)

/-- C2: with no facing direction, a fully transparent map within range and a
    nonnegative initial visibility, the set of points with nonnegative
    visibility after `compute` is exactly the set of points whose offset from
    the eye has Chebyshev length at most `radius` and squared L2 length at
    most `radius² + radius`.  (The Chebyshev bound is implied by the L2
    bound, so the set is the in-range disk of the `nearby` test.) -/
theorem open_terrain_visible_set (loss : Int → Int → Int → Int)
    (radius : Int) (eye : Point) (f : Point → Int) (iv : Int) (p : Point)
    (hr : 0 ≤ radius) (hiv : 0 ≤ iv)
    (hop : ∀ q : Point, (q - eye).len_l2_squared ≤ radius * radius + radius →
      f q = 0) :
    0 ≤ ((Vision.new radius).compute loss ⟨eye, ⟨0, 0⟩, f, iv⟩).get_visibility_at p
      ↔ ((p - eye).len_l1 ≤ radius ∧
         (p - eye).len_l2_squared ≤ radius * radius + radius) :=
  open_visible_iff loss radius eye f iv p hr hiv hop

/-- Witness for `open_terrain_visible_set` at radius 1, eye at the origin, a
    transparent map and the point (1, 0). -/
theorem open_terrain_visible_set_witness :
    0 ≤ ((Vision.new 1).compute (fun _ _ o => o)
        ⟨⟨0, 0⟩, ⟨0, 0⟩, fun _ => 0, 100⟩).get_visibility_at ⟨1, 0⟩
      ↔ (((⟨1, 0⟩ : Point) - ⟨0, 0⟩).len_l1 ≤ 1 ∧
         ((⟨1, 0⟩ : Point) - ⟨0, 0⟩).len_l2_squared ≤ 1 * 1 + 1) :=
  open_terrain_visible_set (fun _ _ o => o) 1 ⟨0, 0⟩ (fun _ => 0) 100 ⟨1, 0⟩
    (by decide) (by decide) (fun q _ => rfl)

end Shadowcast
